import Mathlib

/-!
Shallow embedding of the oxidecomputer/dhcpv6 wire-format codec
(src/buffer.rs, src/lib.rs, src/options.rs) and proofs about the
specification claims.

Modelling conventions:
* Bytes are `Nat`s (the Rust types bound them below 256; theorems that
  quantify over raw buffers carry explicit `< 256` bounds where the
  arithmetic depends on them).
* `u8`/`u16`/`u32`/`usize` casts are written with explicit `% 2 ^ w`.
* Unsigned `usize` subtraction is `usize_sub` (release-mode wrapping
  semantics: underflow wraps to a huge value, which subsequent bounds
  checks then reject).
* A Rust `&[u8]` buffer never changes; only the read offset moves, so
  buffer operations return the value read together with the new offset.
* The recursive option parser and encoder take an explicit fuel
  argument (structural recursion on fuel); the top-level entry points
  pass enough fuel for any input of the given size.
-/

set_option maxHeartbeats 1000000
set_option maxRecDepth 8000
set_option linter.unusedVariables false

namespace Dhcpv6

/-- Error enum from lib.rs. -/
inductive Error where
  | UnknownMsgCode (code : Nat)
  | BadOption (s : String)
  | Unimplemented (s : String)
  | TooShort
  | Other (s : String)
deriving DecidableEq

/-- Result alias from lib.rs. -/
abbrev Result (α : Type) := Except Error α

/-- Big-endian bytes of a `u16` value (`to_be_bytes`). -/
def u16be (v : Nat) : List Nat := [v / 2 ^ 8 % 256, v % 256]

/-- Big-endian bytes of a `u32` value (`to_be_bytes`). -/
def u32be (v : Nat) : List Nat :=
  [v / 2 ^ 24 % 256, v / 2 ^ 16 % 256, v / 2 ^ 8 % 256, v % 256]

/-- Big-endian bytes of a `usize` value (`to_be_bytes`, 64-bit target). -/
def u64be (v : Nat) : List Nat :=
  [v / 2 ^ 56 % 256, v / 2 ^ 48 % 256, v / 2 ^ 40 % 256, v / 2 ^ 32 % 256,
   v / 2 ^ 24 % 256, v / 2 ^ 16 % 256, v / 2 ^ 8 % 256, v % 256]

/-- `usize` subtraction with release-mode wrapping semantics. -/
def usize_sub (a b : Nat) : Nat := (a + 2 ^ 64 - b % 2 ^ 64) % 2 ^ 64

/-- Read view over an immutable byte slice (buffer.rs `Buffer`).
The stored `len` field of the source always equals `data.len()`, so it
is not duplicated here. -/
structure Buffer where
  data : List Nat
  offset : Nat

namespace Buffer

/-- buffer.rs `left`. -/
def left (b : Buffer) : Nat :=
  if b.offset < b.data.length then b.data.length - b.offset else 0

/-- buffer.rs `check_size`. -/
def check_size (b : Buffer) (size : Nat) : Result Unit :=
  if b.left < size then .error .TooShort else .ok ()

/-- buffer.rs `set_offset`: fails when the requested offset passes the
end of the buffer, otherwise the new offset is adopted. -/
def set_offset (b : Buffer) (offset : Nat) : Result Nat :=
  if offset > b.data.length then .error .TooShort else .ok offset

/-- buffer.rs `get_bytes`: `check_size(n)` then the slice
`data[offset..offset + n]`, advancing by `n`. -/
def get_bytes (b : Buffer) (n : Nat) : Result (List Nat × Nat) := do
  let _ ← b.check_size n
  .ok ((b.data.drop b.offset).take n, b.offset + n)

/-- buffer.rs `get_8`. -/
def get_8 (b : Buffer) : Result (Nat × Nat) := do
  let _ ← b.check_size 1
  .ok (b.data.getD b.offset 0, b.offset + 1)

/-- buffer.rs `get_16`: shift-or of two `u8`s, written as arithmetic. -/
def get_16 (b : Buffer) : Result (Nat × Nat) := do
  let _ ← b.check_size 2
  .ok (b.data.getD b.offset 0 * 2 ^ 8 + b.data.getD (b.offset + 1) 0, b.offset + 2)

/-- buffer.rs `get_24`: the source checks FOUR bytes (`check_size(4)`)
but reads and consumes only three. -/
def get_24 (b : Buffer) : Result (Nat × Nat) := do
  let _ ← b.check_size 4
  .ok (b.data.getD b.offset 0 * 2 ^ 16 + b.data.getD (b.offset + 1) 0 * 2 ^ 8 +
       b.data.getD (b.offset + 2) 0, b.offset + 3)

/-- buffer.rs `get_32`. -/
def get_32 (b : Buffer) : Result (Nat × Nat) := do
  let _ ← b.check_size 4
  .ok (b.data.getD b.offset 0 * 2 ^ 24 + b.data.getD (b.offset + 1) 0 * 2 ^ 16 +
       b.data.getD (b.offset + 2) 0 * 2 ^ 8 + b.data.getD (b.offset + 3) 0, b.offset + 4)

/-- buffer.rs `get_ipv6addr`: 16 raw bytes folded into eight 16-bit
words (the `Ipv6Addr` is modelled as its list of eight words). -/
def get_ipv6addr (b : Buffer) : Result (List Nat × Nat) := do
  let (x, o) ← b.get_bytes 16
  .ok ((List.range 8).map (fun i => x.getD (2 * i) 0 * 2 ^ 8 + x.getD (2 * i + 1) 0), o)

end Buffer

/-- `Ipv6Addr::octets`: the eight words back to 16 big-endian bytes. -/
def ipv6octets (a : List Nat) : List Nat :=
  (a.map (fun w => [w / 2 ^ 8 % 256, w % 256])).flatten

/-- Message types from lib.rs `MsgType`. -/
inductive MsgType where
  | Solicit | Advertise | Request | Confirm | Renew | Rebind | Reply
  | Release | Decline | Reconfigure | InformationRequest | RelayForw | RelayRepl
deriving DecidableEq

/-- The numeric code of a message type (`MsgType as u8`). -/
def MsgType.code : MsgType → Nat
  | .Solicit => 1
  | .Advertise => 2
  | .Request => 3
  | .Confirm => 4
  | .Renew => 5
  | .Rebind => 6
  | .Reply => 7
  | .Release => 8
  | .Decline => 9
  | .Reconfigure => 10
  | .InformationRequest => 11
  | .RelayForw => 12
  | .RelayRepl => 13

/-- lib.rs `TryFrom<u8> for MsgType`. -/
def MsgType.tryFrom (code : Nat) : Option MsgType :=
  if code = 1 then some .Solicit
  else if code = 2 then some .Advertise
  else if code = 3 then some .Request
  else if code = 4 then some .Confirm
  else if code = 5 then some .Renew
  else if code = 6 then some .Rebind
  else if code = 7 then some .Reply
  else if code = 8 then some .Release
  else if code = 9 then some .Decline
  else if code = 10 then some .Reconfigure
  else if code = 11 then some .InformationRequest
  else if code = 12 then some .RelayForw
  else if code = 13 then some .RelayRepl
  else none

/-- Status codes from lib.rs `StatusCode`. -/
inductive StatusCode where
  | Success | UnspecFail | NoAddrsAvail | NoBinding | NotOnLink | UseMulticast
deriving DecidableEq

/-- The numeric value of a status code (`StatusCode as u16`). -/
def StatusCode.toNat : StatusCode → Nat
  | .Success => 0
  | .UnspecFail => 1
  | .NoAddrsAvail => 2
  | .NoBinding => 3
  | .NotOnLink => 4
  | .UseMulticast => 5

/-- lib.rs `TryFrom<u16> for StatusCode`: only 0..=5 are accepted. -/
def StatusCode.tryFrom (code : Nat) : Option StatusCode :=
  if code = 0 then some .Success
  else if code = 1 then some .UnspecFail
  else if code = 2 then some .NoAddrsAvail
  else if code = 3 then some .NoBinding
  else if code = 4 then some .NotOnLink
  else if code = 5 then some .UseMulticast
  else none

/-- options.rs `DuidLLT`. -/
structure DuidLLT where
  type_code : Nat
  hw_type : Nat
  time : Nat
  link_layer : List Nat
deriving DecidableEq

/-- options.rs `DuidLLT::parse`. -/
def DuidLLT.parse (len : Nat) (buf : Buffer) : Result (DuidLLT × Nat) :=
  if len < 7 then .error .TooShort
  else do
    let (hw, o1) ← buf.get_16
    let (t, o2) ← Buffer.get_32 ⟨buf.data, o1⟩
    let (ll, o3) ← Buffer.get_bytes ⟨buf.data, o2⟩ (usize_sub len 6)
    .ok (⟨1, hw, t, ll⟩, o3)

/-- options.rs `DuidLLT::encode` (infallible in the source). -/
def DuidLLT.encode (x : DuidLLT) : List Nat :=
  u16be x.type_code ++ u16be x.hw_type ++ u32be x.time ++ x.link_layer

/-- options.rs `DuidEn`. -/
structure DuidEn where
  type_code : Nat
  enterprise_code : Nat
  identifier : List Nat
deriving DecidableEq

/-- options.rs `DuidEn::parse`. -/
def DuidEn.parse (len : Nat) (buf : Buffer) : Result (DuidEn × Nat) :=
  if len < 5 then .error .TooShort
  else do
    let (e, o1) ← buf.get_32
    let (id, o2) ← Buffer.get_bytes ⟨buf.data, o1⟩ (usize_sub len 4)
    .ok (⟨2, e, id⟩, o2)

/-- options.rs `DuidEn::encode` (infallible in the source). -/
def DuidEn.encode (x : DuidEn) : List Nat :=
  u16be x.type_code ++ u32be x.enterprise_code ++ x.identifier

/-- options.rs `DuidLL`. -/
structure DuidLL where
  type_code : Nat
  hw_type : Nat
  link_layer : List Nat
deriving DecidableEq

/-- options.rs `DuidLL::parse`.  Note: after the guard `len < 3` the
source reads `len - 6` link-layer bytes although only the 2-byte
hardware type precedes them (compare `DuidLLT::parse`, which consumes
6 bytes before reading `len - 6`). -/
def DuidLL.parse (len : Nat) (buf : Buffer) : Result (DuidLL × Nat) :=
  if len < 3 then .error .TooShort
  else do
    let (hw, o1) ← buf.get_16
    let (ll, o2) ← Buffer.get_bytes ⟨buf.data, o1⟩ (usize_sub len 6)
    .ok (⟨3, hw, ll⟩, o2)

/-- options.rs `DuidLL::encode` (infallible in the source). -/
def DuidLL.encode (x : DuidLL) : List Nat :=
  u16be x.type_code ++ u16be x.hw_type ++ x.link_layer

/-- options.rs `Duid`. -/
inductive Duid where
  | Llt (x : DuidLLT)
  | En (x : DuidEn)
  | Ll (x : DuidLL)
deriving DecidableEq

/-- options.rs `Duid::parse` (`OptionParse for Duid`). -/
def Duid.parse (len : Nat) (buf : Buffer) : Result (Duid × Nat) := do
  let (type_code, o1) ← buf.get_16
  let remaining := usize_sub len 2
  if remaining ≤ 128 then
    match type_code with
    | 1 => do
        let (x, o) ← DuidLLT.parse remaining ⟨buf.data, o1⟩
        .ok (.Llt x, o)
    | 2 => do
        let (x, o) ← DuidEn.parse remaining ⟨buf.data, o1⟩
        .ok (.En x, o)
    | 3 => do
        let (x, o) ← DuidLL.parse remaining ⟨buf.data, o1⟩
        .ok (.Ll x, o)
    | _ => .error (.BadOption "invalid DUID type")
  else .error (.BadOption "duid to long")

/-- options.rs `Duid::encode` (infallible in the source). -/
def Duid.encode : Duid → List Nat
  | .Llt x => x.encode
  | .En x => x.encode
  | .Ll x => x.encode

/-- options.rs `StatusCodeOption`. -/
structure StatusCodeOption where
  code : StatusCode
  msg : List Nat
deriving DecidableEq

/-- options.rs `StatusCodeOption::parse`.  An out-of-range numeric code
is mapped to `Error::Other("invalid status code")`. -/
def StatusCodeOption.parse (len : Nat) (buf : Buffer) : Result (StatusCodeOption × Nat) := do
  let (c, o1) ← buf.get_16
  match StatusCode.tryFrom c with
  | none => .error (.Other "invalid status code")
  | some code => do
      let (msg, o2) ← Buffer.get_bytes ⟨buf.data, o1⟩ (usize_sub len 2)
      .ok (⟨code, msg⟩, o2)

/-- options.rs `StatusCodeOption::encode` (infallible in the source). -/
def StatusCodeOption.encode (x : StatusCodeOption) : List Nat :=
  u16be x.code.toNat ++ x.msg

/-- options.rs `ClassData` (the `len` field is a `usize`). -/
structure ClassData where
  len : Nat
  data : List Nat
deriving DecidableEq

/-- Inner loop of `Vec<ClassData>::parse` over the carved bytes:
`get_16` length then `get_bytes(len)`, until the region is empty. -/
def classDataLoop : List Nat → Result (List ClassData)
  | [] => .ok []
  | [_] => .error .TooShort
  | l1 :: l0 :: rest =>
    let len := l1 * 2 ^ 8 + l0
    if rest.length < len then .error .TooShort
    else
      match classDataLoop (rest.drop len) with
      | .ok v => .ok (⟨len, rest.take len⟩ :: v)
      | .error e => .error e
termination_by l => l.length
decreasing_by simp [List.length_drop]; omega

/-- options.rs `Vec<ClassData>::parse`: carve `len` bytes, then run the
inner loop over a fresh buffer holding them. -/
def classDataParse (len : Nat) (buf : Buffer) : Result (List ClassData × Nat) := do
  let (data, o) ← buf.get_bytes len
  match classDataLoop data with
  | .ok v => .ok (v, o)
  | .error e => .error e

/-- options.rs `Vec<ClassData>::encode`.  `class.len` is a `usize`, so
`to_be_bytes` emits EIGHT length bytes (the parser reads two). -/
def classDataEncode (v : List ClassData) : List Nat :=
  v.foldr (fun c acc => u64be c.len ++ c.data ++ acc) []

/-- options.rs `VendorClassOption`. -/
structure VendorClassOption where
  enterprise_number : Nat
  data : List ClassData
deriving DecidableEq

/-- options.rs `VendorClassOption::parse`. -/
def VendorClassOption.parse (len : Nat) (buf : Buffer) : Result (VendorClassOption × Nat) := do
  let (e, o1) ← buf.get_32
  let (d, o2) ← classDataParse (usize_sub len 4) ⟨buf.data, o1⟩
  .ok (⟨e, d⟩, o2)

/-- options.rs `VendorClassOption::encode`: enterprise number then the
same (usize-length-prefixed) class-data blocks as `classDataEncode`. -/
def VendorClassOption.encode (x : VendorClassOption) : List Nat :=
  u32be x.enterprise_number ++ classDataEncode x.data

/-- options.rs `VendorOption`. -/
structure VendorOption where
  enterprise_number : Nat
  data : List Nat
deriving DecidableEq

/-- options.rs `VendorOption::parse`. -/
def VendorOption.parse (len : Nat) (buf : Buffer) : Result (VendorOption × Nat) := do
  let (e, o1) ← buf.get_32
  let (d, o2) ← Buffer.get_bytes ⟨buf.data, o1⟩ (usize_sub len 4)
  .ok (⟨e, d⟩, o2)

/-- options.rs `VendorOption::encode` (infallible in the source). -/
def VendorOption.encode (x : VendorOption) : List Nat :=
  u32be x.enterprise_number ++ x.data

/-- options.rs `OtherOption`. -/
structure OtherOption where
  code : Nat
  len : Nat
  data : List Nat
deriving DecidableEq

/-- options.rs `other_option`. -/
def other_option (code len : Nat) (buf : Buffer) : Result (OtherOption × Nat) := do
  let (d, o) ← buf.get_bytes len
  .ok (⟨code, len, d⟩, o)

/-- Read loop of options.rs `Vec<u16>::parse`: `cnt` big-endian
16-bit reads. -/
def vecU16loop : Nat → Buffer → Result (List Nat × Nat)
  | 0, buf => .ok ([], buf.offset)
  | n + 1, buf => do
    let (v, o1) ← buf.get_16
    let (vs, o2) ← vecU16loop n ⟨buf.data, o1⟩
    .ok (v :: vs, o2)

/-- options.rs `Vec<u16>::parse`: `len / 2` reads — an odd trailing
byte is simply not read. -/
def vecU16parse (len : Nat) (buf : Buffer) : Result (List Nat × Nat) :=
  vecU16loop (len / 2) buf

/-- Read loop of options.rs `Vec<Ipv6Addr>::parse`. -/
def vecIpv6loop : Nat → Buffer → Result (List (List Nat) × Nat)
  | 0, buf => .ok ([], buf.offset)
  | n + 1, buf => do
    let (a, o1) ← buf.get_ipv6addr
    let (as_, o2) ← vecIpv6loop n ⟨buf.data, o1⟩
    .ok (a :: as_, o2)

/-- options.rs `Vec<Ipv6Addr>::parse`: the length must be an exact
multiple of 16, then that many addresses are read. -/
def vecIpv6parse (len : Nat) (buf : Buffer) : Result (List (List Nat) × Nat) :=
  let cnt := len / 16
  if cnt * 16 ≠ len then .error .TooShort
  else vecIpv6loop cnt buf

/-- Rust `char::is_ascii`. -/
def char_is_ascii (c : Char) : Bool := c.toNat ≤ 0x7f

/-- Rust `char::is_ascii_alphabetic`. -/
def char_is_ascii_alphabetic (c : Char) : Bool :=
  (0x41 ≤ c.toNat && c.toNat ≤ 0x5a) || (0x61 ≤ c.toNat && c.toNat ≤ 0x7a)

/-- Rust `char::is_alphanumeric`, restricted to the ASCII range, where
it coincides with ASCII letters and digits.  In `domain_validate` any
non-ASCII character is rejected before this check can run, so only the
ASCII range is ever consulted. -/
def char_is_alphanumeric (c : Char) : Bool :=
  char_is_ascii_alphabetic c || (0x30 ≤ c.toNat && c.toNat ≤ 0x39)

/-- UTF-8 width of one scalar value (Rust `String::len` counts these). -/
def utf8CharLen (c : Char) : Nat :=
  if c.toNat < 0x80 then 1
  else if c.toNat < 0x800 then 2
  else if c.toNat < 0x10000 then 3
  else 4

/-- Rust `String::len`: total UTF-8 byte length. -/
def utf8Len (s : List Char) : Nat := (s.map utf8CharLen).sum

/-- Character loop of options.rs `domain_validate`, carrying the
`first` flag and running `label_size` exactly as the source does.
(The source's final check `!(c.is_alphanumeric() && c != '-')` is
`!c.is_alphanumeric()`, since a hyphen is never alphanumeric.) -/
def dvLoop : List Char → Bool → Nat → Result Unit
  | [], _, _ => .ok ()
  | c :: rest, first, label_size =>
    if !char_is_ascii c then .error (.BadOption "non-ascii domain name")
    else if first && !char_is_ascii_alphabetic c then
      .error (.BadOption "domain doesn\x27t start with a letter")
    else if c = '.' then dvLoop rest false 0
    else if label_size + 1 > 63 then .error (.BadOption "domain lable too large")
    else if !char_is_alphanumeric c then .error (.BadOption "invalid domain name")
    else dvLoop rest false (label_size + 1)

/-- options.rs `domain_validate` (strings are lists of characters;
`domain.len()` is the UTF-8 byte count). -/
def domain_validate (domain : List Char) : Result Unit :=
  if utf8Len domain > 253 then .error (.BadOption "domain name too large")
  else dvLoop domain true 0

/-- Rust `str::split('.')`: the dot-separated chunks, empties kept. -/
def splitDot : List Char → List (List Char)
  | [] => [[]]
  | c :: rest =>
    if c = '.' then [] :: splitDot rest
    else
      match splitDot rest with
      | l :: ls => (c :: l) :: ls
      | [] => [[c]]

/-- options.rs `domain_list_encode`: validate each name, then emit each
non-empty label as a length byte plus its bytes, with a trailing zero
byte when at least one label was written. -/
def domain_list_encode : List (List Char) → Result (List Nat)
  | [] => .ok []
  | d :: ds =>
    match domain_validate d with
    | .error e => .error e
    | .ok _ =>
      let labs := (splitDot d).filter (fun l => !l.isEmpty)
      let enc := (labs.map (fun l => l.length % 256 :: l.map Char.toNat)).flatten
      let enc := if labs.length > 0 then enc ++ [0] else enc
      match domain_list_encode ds with
      | .ok rest => .ok (enc ++ rest)
      | .error e => .error e

/-- `std::char::from_u32` on a byte-sized value: fails exactly on the
surrogate range and on values past the scalar maximum. -/
def charOfByte (b : Nat) : Result Char :=
  if 0xd800 ≤ b ∧ b < 0xe000 then .error (.BadOption "domain contains invalid character")
  else if 0x110000 ≤ b then .error (.BadOption "domain contains invalid character")
  else .ok (Char.ofNat b)

/-- Convert the bytes of one label to characters (the inner `for` of
options.rs `domain_parse`). -/
def labelChars : List Nat → Result (List Char)
  | [] => .ok []
  | b :: rest => do
    let c ← charOfByte b
    let cs ← labelChars rest
    .ok (c :: cs)

/-- Label loop of options.rs `domain_parse`: read a length byte, stop
on zero, fail when the length overruns the remaining bytes, else
append the label (dot-separated) and continue.  The returned remainder
is strictly shorter than a non-empty input, which bounds the caller's
loop. -/
def domain_parse_loop : (l : List Nat) → List Char →
    Result (List Char × {r : List Nat // (l = [] ∧ r = []) ∨ r.length < l.length})
  | [], dom => .ok (dom, ⟨[], Or.inl ⟨rfl, rfl⟩⟩)
  | len :: rest, dom =>
    if len = 0 then .ok (dom, ⟨rest, Or.inr (by simp)⟩)
    else if rest.length < len then .error (.BadOption "domain option overflow")
    else
      match labelChars (rest.take len) with
      | .error e => .error e
      | .ok cs =>
        let dom2 := if dom.isEmpty then cs else dom ++ '.' :: cs
        match domain_parse_loop (rest.drop len) dom2 with
        | .error e => .error e
        | .ok (d, ⟨r, hr⟩) =>
          .ok (d, ⟨r, Or.inr (by
            rcases hr with ⟨_, h⟩ | h
            · simp [h]
            · have hd := List.length_drop len rest
              simp only [List.length_cons]
              omega)⟩)
termination_by l => l.length
decreasing_by simp [List.length_drop]; omega

/-- options.rs `domain_parse`: run the label loop then validate the
assembled name. -/
def domain_parse (l : List Nat) :
    Result (List Char × {r : List Nat // (l = [] ∧ r = []) ∨ r.length < l.length}) :=
  match domain_parse_loop l [] with
  | .error e => .error e
  | .ok (d, r) =>
    match domain_validate d with
    | .error e => .error e
    | .ok _ => .ok (d, r)

/-- Outer loop of options.rs `domain_list_parse` over the carved
bytes: parse names until none remain. -/
def domain_list_loop : (data : List Nat) → Result (List (List Char))
  | [] => .ok []
  | b :: bs =>
    match domain_parse (b :: bs) with
    | .error e => .error e
    | .ok (d, ⟨r, hr⟩) =>
      if utf8Len d > 255 then .error (.BadOption "domain too large")
      else
        match domain_list_loop r with
        | .ok list => .ok (d :: list)
        | .error e => .error e
termination_by data => data.length
decreasing_by
  rcases hr with ⟨h, _⟩ | h
  · exact absurd h (by simp)
  · exact h

/-- options.rs `domain_list_parse`. -/
def domain_list_parse (len : Nat) (buf : Buffer) : Result (List (List Char) × Nat) := do
  let (data, o) ← buf.get_bytes len
  match domain_list_loop data with
  | .ok l => .ok (l, o)
  | .error e => .error e

/-- options.rs `Dhcpv6Option`.  `IaNaOption`, `IaTaOption` and
`IaAddrOption` are inlined as constructor fields (iaid/t1/t2/options,
iaid/options, addr/preferred/valid/options respectively) so that the
nested recursion through `Vec<Dhcpv6Option>` stays a single nested
inductive. -/
inductive Dhcpv6Option where
  | ClientId (d : Duid)
  | ServerId (d : Duid)
  | IaNa (iaid : Nat) (t1 : Nat) (t2 : Nat) (options : List Dhcpv6Option)
  | IaTa (iaid : Nat) (options : List Dhcpv6Option)
  | IaAddr (addr : List Nat) (preferred_lifetime : Nat) (valid_lifetime : Nat)
      (options : List Dhcpv6Option)
  | Oro (codes : List Nat)
  | Preference (v : Nat)
  | ElapsedTime (v : Nat)
  | RelayMsg (data : List Nat)
  | Auth
  | Unicast (addr : List Nat)
  | StatusCode (x : StatusCodeOption)
  | RapidCommit
  | UserClass (data : List ClassData)
  | VendorClass (x : VendorClassOption)
  | VendorOpts (x : VendorOption)
  | InterfaceId (data : List Nat)
  | ReconfMsg (v : Nat)
  | ReconfAccept
  | DnsServers (addrs : List (List Nat))
  | DomainList (domains : List (List Char))
  | Other (x : OtherOption)

/-- options.rs `From<&Dhcpv6Option> for u16`: the option code of each
variant (`Other` carries its own code). -/
def optCode : Dhcpv6Option → Nat
  | .ClientId _ => 1
  | .ServerId _ => 2
  | .IaNa _ _ _ _ => 3
  | .IaTa _ _ => 4
  | .IaAddr _ _ _ _ => 5
  | .Oro _ => 6
  | .Preference _ => 7
  | .ElapsedTime _ => 8
  | .RelayMsg _ => 9
  | .Auth => 11
  | .Unicast _ => 12
  | .StatusCode _ => 13
  | .RapidCommit => 14
  | .UserClass _ => 15
  | .VendorClass _ => 16
  | .VendorOpts _ => 17
  | .InterfaceId _ => 18
  | .ReconfMsg _ => 19
  | .ReconfAccept => 20
  | .DnsServers _ => 23
  | .DomainList _ => 24
  | .Other x => x.code

mutual

/-- `PartialEq for Dhcpv6Option`.  Every variant compares structurally
except the three identity-association containers, whose derived
`PartialEq` calls `compare_options(..).is_ok()` on the nested option
lists; that success test is `os.length == os'.length && matchLoop os
os'` (see `compare_options_ok_iff_matches`). -/
def optEq : Dhcpv6Option → Dhcpv6Option → Bool
  | .ClientId a, .ClientId b => a == b
  | .ServerId a, .ServerId b => a == b
  | .IaNa i t1 t2 os, .IaNa i' t1' t2' os' =>
      i == i' && t1 == t1' && t2 == t2' && (os.length == os'.length && matchLoop os os')
  | .IaTa i os, .IaTa i' os' => i == i' && (os.length == os'.length && matchLoop os os')
  | .IaAddr a p v os, .IaAddr a' p' v' os' =>
      a == a' && p == p' && v == v' && (os.length == os'.length && matchLoop os os')
  | .Oro a, .Oro b => a == b
  | .Preference a, .Preference b => a == b
  | .ElapsedTime a, .ElapsedTime b => a == b
  | .RelayMsg a, .RelayMsg b => a == b
  | .Auth, .Auth => true
  | .Unicast a, .Unicast b => a == b
  | .StatusCode a, .StatusCode b => a == b
  | .RapidCommit, .RapidCommit => true
  | .UserClass a, .UserClass b => a == b
  | .VendorClass a, .VendorClass b => a == b
  | .VendorOpts a, .VendorOpts b => a == b
  | .InterfaceId a, .InterfaceId b => a == b
  | .ReconfMsg a, .ReconfMsg b => a == b
  | .ReconfAccept, .ReconfAccept => true
  | .DnsServers a, .DnsServers b => a == b
  | .DomainList a, .DomainList b => a == b
  | .Other a, .Other b => a == b
  | _, _ => false
termination_by a b => sizeOf a + sizeOf b

/-- The matching loop of options.rs `compare_options`, succeeding iff
every left element is matched and no right element remains.  The
source's `HashSet` of not-yet-matched indices into `b` is represented
by the order-preserving sublist of the not-yet-matched elements of
`b`; "first index still in `to_match` whose element equals `opt_a`"
is then "first remaining element equal to `opt_a`".  An unmatched left
element makes `to_find` non-empty forever, so the boolean outcome is
already `false` at that point. -/
def matchLoop : List Dhcpv6Option → List Dhcpv6Option → Bool
  | [], rem => rem.isEmpty
  | x :: xs, rem =>
    match eraseFirstMatch x rem with
    | some rem' => matchLoop xs rem'.val
    | none => false
termination_by a rem => sizeOf a + sizeOf rem

/-- Consume the first not-yet-matched element equal (via `optEq`) to
`x`, as the inner `for idx_b in 0..b.len()` loop of `compare_options`
does.  The size bound on the result feeds the termination proof of
`matchLoop`. -/
def eraseFirstMatch (x : Dhcpv6Option) :
    (l : List Dhcpv6Option) → Option {r : List Dhcpv6Option // sizeOf r < sizeOf l}
  | [] => none
  | y :: ys =>
    if optEq x y then some ⟨ys, by simp only [List.cons.sizeOf_spec]; omega⟩
    else
      match eraseFirstMatch x ys with
      | some ⟨r, h⟩ => some ⟨y :: r, by simp only [List.cons.sizeOf_spec]; omega⟩
      | none => none
termination_by l => sizeOf x + sizeOf l

end

/-- `eraseFirstMatch` without the size bound. -/
def eraseFirst (x : Dhcpv6Option) (l : List Dhcpv6Option) : Option (List Dhcpv6Option) :=
  (eraseFirstMatch x l).map Subtype.val

/-- The two-set bookkeeping of options.rs `compare_options`: fold over
the left list, each element either consuming its first remaining match
on the right or bumping the count of unmatched left elements.  Returns
(`to_find.len()`, the remaining unmatched right elements, whose count
is `to_match.len()`). -/
def cmpLoop : List Dhcpv6Option → List Dhcpv6Option → Nat × List Dhcpv6Option
  | [], rem => (0, rem)
  | x :: xs, rem =>
    match eraseFirst x rem with
    | some rem' => cmpLoop xs rem'
    | none =>
      let ur := cmpLoop xs rem
      (ur.1 + 1, ur.2)

/-- options.rs `compare_options`. -/
def compare_options (a b : List Dhcpv6Option) : Result Unit :=
  if a.length ≠ b.length then .error (.Other "option counts differ")
  else
    let tfm := cmpLoop a b
    if !tfm.2.isEmpty || tfm.1 ≠ 0 then
      .error (.Other (toString tfm.2.length ++ " extra options.  " ++
        toString tfm.1 ++ " missing options."))
    else .ok ()

mutual

/-- The variant-payload `match` inside options.rs `encode_one`. -/
def encode_payload : Dhcpv6Option → Result (List Nat)
  | .ClientId x => .ok x.encode
  | .ServerId x => .ok x.encode
  | .IaNa i t1 t2 os => do
      let nested ← encode_options os
      .ok (u32be i ++ u32be t1 ++ u32be t2 ++ nested)
  | .IaTa i os => do
      let nested ← encode_options os
      .ok (u32be i ++ nested)
  | .IaAddr a p v os => do
      let nested ← encode_options os
      .ok (ipv6octets a ++ u32be p ++ u32be v ++ nested)
  | .Oro x => .ok (x.foldr (fun c acc => u16be c ++ acc) [])
  | .Preference x => .ok [x % 256]
  | .ElapsedTime x => .ok (u16be x)
  | .RelayMsg x => .ok x
  | .Auth => .error (.Unimplemented "Authentication option")
  | .Unicast a => .ok (ipv6octets a)
  | .StatusCode x => .ok x.encode
  | .RapidCommit => .ok []
  | .UserClass x => .ok (classDataEncode x)
  | .VendorClass x => .ok x.encode
  | .VendorOpts x => .ok x.encode
  | .InterfaceId x => .ok x
  | .ReconfMsg x => .ok [x % 256]
  | .ReconfAccept => .ok []
  | .DnsServers x => .ok ((x.map ipv6octets).flatten)
  | .DomainList x => domain_list_encode x
  | .Other x => .ok x.data
termination_by opt => 2 * sizeOf opt

/-- options.rs `encode_one`: serialize the variant payload, then emit
code, length (`data.len() as u16`, equal byte-for-byte to
`u16be data.length`) and payload. -/
def encode_one (opt : Dhcpv6Option) : Result (List Nat) := do
  let data ← encode_payload opt
  .ok (u16be (optCode opt) ++ u16be data.length ++ data)
termination_by 2 * sizeOf opt + 1

/-- options.rs `encode_options`: concatenation of `encode_one` over
the list, in order. -/
def encode_options : List Dhcpv6Option → Result (List Nat)
  | [] => .ok []
  | o :: os => do
    let v ← encode_one o
    let rest ← encode_options os
    .ok (v ++ rest)
termination_by os => 2 * sizeOf os

end

/-! The recursive parser family.  The source ties `parse_one`,
`parse_options`, `parse_nested_options` and the three
identity-association parsers into one recursion; here each function is
written against an abstract `po : Buffer → Result _` standing for "the
option loop at the remaining recursion depth", and the single fueled
function `parse_options` closes the knot (structural recursion on the
fuel, so concrete parses evaluate by reduction).  The `Nat`-indexed
wrappers below restore the source signatures. -/

/-- options.rs `parse_nested_options` against an abstract option loop:
carve `len` bytes into an isolated sub-buffer and run the loop on it
alone. -/
def parse_nested_aux (po : Buffer → Result (List Dhcpv6Option × Nat))
    (buf : Buffer) (len : Nat) : Result (List Dhcpv6Option × Nat) := do
  let (data, o) ← buf.get_bytes len
  let (opts, _inner) ← po ⟨data, 0⟩
  .ok (opts, o)

/-- options.rs `IaNaOption::parse`, returning the parsed fields
wrapped in the `Dhcpv6Option.IaNa` constructor. -/
def IaNaOption.parse_aux (po : Buffer → Result (List Dhcpv6Option × Nat))
    (len : Nat) (buf : Buffer) : Result (Dhcpv6Option × Nat) := do
  let (iaid, o1) ← buf.get_32
  let (t1, o2) ← Buffer.get_32 ⟨buf.data, o1⟩
  let (t2, o3) ← Buffer.get_32 ⟨buf.data, o2⟩
  let (options, o4) ← parse_nested_aux po ⟨buf.data, o3⟩ (usize_sub len 12)
  .ok (.IaNa iaid t1 t2 options, o4)

/-- options.rs `IaTaOption::parse`, wrapped as `Dhcpv6Option.IaTa`. -/
def IaTaOption.parse_aux (po : Buffer → Result (List Dhcpv6Option × Nat))
    (len : Nat) (buf : Buffer) : Result (Dhcpv6Option × Nat) := do
  let (iaid, o1) ← buf.get_32
  let (options, o2) ← parse_nested_aux po ⟨buf.data, o1⟩ (usize_sub len 4)
  .ok (.IaTa iaid options, o2)

/-- options.rs `IaAddrOption::parse`, wrapped as
`Dhcpv6Option.IaAddr`. -/
def IaAddrOption.parse_aux (po : Buffer → Result (List Dhcpv6Option × Nat))
    (len : Nat) (buf : Buffer) : Result (Dhcpv6Option × Nat) := do
  let (addr, o1) ← buf.get_ipv6addr
  let (p, o2) ← Buffer.get_32 ⟨buf.data, o1⟩
  let (v, o3) ← Buffer.get_32 ⟨buf.data, o2⟩
  let (options, o4) ← parse_nested_aux po ⟨buf.data, o3⟩ (usize_sub len 24)
  .ok (.IaAddr addr p v options, o4)

/-- The per-code dispatch `match` inside options.rs `parse_one`.
Codes as in the `OPTION_*` constants: 1 ClientId, 2 ServerId, 3 IA_NA,
4 IA_TA, 5 IAADDR, 6 ORO, 7 Preference, 8 ElapsedTime, 9 RelayMsg,
11 Auth (unimplemented), 12 Unicast, 13 StatusCode, 14 RapidCommit,
15 UserClass, 16 VendorClass, 17 VendorOpts, 18 InterfaceId,
19 ReconfMsg, 20 ReconfAccept, 23 DnsServers, 24 DomainList, anything
else `Other`. -/
def parse_variant_aux (po : Buffer → Result (List Dhcpv6Option × Nat))
    (code len : Nat) (buf : Buffer) : Result (Dhcpv6Option × Nat) :=
  match code with
  | 1 => do
      let (d, o) ← Duid.parse len buf
      .ok (.ClientId d, o)
  | 2 => do
      let (d, o) ← Duid.parse len buf
      .ok (.ServerId d, o)
  | 3 => IaNaOption.parse_aux po len buf
  | 4 => IaTaOption.parse_aux po len buf
  | 5 => IaAddrOption.parse_aux po len buf
  | 6 => do
      let (v, o) ← vecU16parse len buf
      .ok (.Oro v, o)
  | 7 => do
      let (v, o) ← buf.get_8
      .ok (.Preference v, o)
  | 8 => do
      let (v, o) ← buf.get_16
      .ok (.ElapsedTime v, o)
  | 9 => do
      let (v, o) ← buf.get_bytes len
      .ok (.RelayMsg v, o)
  | 11 => .error (.Unimplemented "Authentication option")
  | 12 => do
      let (a, o) ← buf.get_ipv6addr
      .ok (.Unicast a, o)
  | 13 => do
      let (x, o) ← StatusCodeOption.parse len buf
      .ok (.StatusCode x, o)
  | 14 => .ok (.RapidCommit, buf.offset)
  | 15 => do
      let (v, o) ← classDataParse len buf
      .ok (.UserClass v, o)
  | 16 => do
      let (x, o) ← VendorClassOption.parse len buf
      .ok (.VendorClass x, o)
  | 17 => do
      let (x, o) ← VendorOption.parse len buf
      .ok (.VendorOpts x, o)
  | 18 => do
      let (v, o) ← buf.get_bytes len
      .ok (.InterfaceId v, o)
  | 19 => do
      let (v, o) ← buf.get_8
      .ok (.ReconfMsg v, o)
  | 20 => .ok (.ReconfAccept, buf.offset)
  | 23 => do
      let (v, o) ← vecIpv6parse len buf
      .ok (.DnsServers v, o)
  | 24 => do
      let (v, o) ← domain_list_parse len buf
      .ok (.DomainList v, o)
  | _ => do
      let (x, o) ← other_option code len buf
      .ok (.Other x, o)

/-- options.rs `parse_one` against an abstract option loop: read code
and length, remember the declared end `next`, run the per-code variant
parser, then unconditionally reposition to `next` (which fails
`TooShort` when `next` passes the end of the buffer). -/
def parse_one_aux (po : Buffer → Result (List Dhcpv6Option × Nat))
    (buf : Buffer) : Result (Dhcpv6Option × Nat) := do
  let (code, o1) ← buf.get_16
  let (len, o2) ← Buffer.get_16 ⟨buf.data, o1⟩
  let next := o2 + len
  let (opt, o3) ← parse_variant_aux po code len ⟨buf.data, o2⟩
  let o4 ← Buffer.set_offset ⟨buf.data, o3⟩ next
  .ok (opt, o4)

/-- options.rs `parse_options`: parse options while bytes remain. -/
def parse_options : Nat → Buffer → Result (List Dhcpv6Option × Nat)
  | 0, _ => .error (.Other "recursion limit")
  | f + 1, buf =>
    if buf.left = 0 then .ok ([], buf.offset)
    else do
      let (opt, o1) ← parse_one_aux (fun b => parse_options f b) buf
      let (opts, o2) ← parse_options f ⟨buf.data, o1⟩
      .ok (opt :: opts, o2)

/-- options.rs `parse_one` with explicit fuel. -/
def parse_one : Nat → Buffer → Result (Dhcpv6Option × Nat)
  | 0, _ => .error (.Other "recursion limit")
  | f + 1, buf => parse_one_aux (fun b => parse_options f b) buf

/-- The per-code dispatch with explicit fuel. -/
def parse_variant : Nat → Nat → Nat → Buffer → Result (Dhcpv6Option × Nat)
  | 0, _, _, _ => .error (.Other "recursion limit")
  | f + 1, code, len, buf => parse_variant_aux (fun b => parse_options f b) code len buf

/-- options.rs `ClientMsg`. -/
structure ClientMsg where
  msg_type : MsgType
  tx_id : Nat
  options : List Dhcpv6Option

/-- lib.rs `ClientMsg::decode`: message-type byte (unknown codes carry
the byte in the error), 24-bit transaction id, then the option loop
over the remainder. -/
def ClientMsg.decode (data : List Nat) : Result ClientMsg := do
  let (code, o1) ← Buffer.get_8 ⟨data, 0⟩
  match MsgType.tryFrom code with
  | none => .error (.UnknownMsgCode code)
  | some msg_type => do
    let (tx_id, o2) ← Buffer.get_24 ⟨data, o1⟩
    let (options, _) ← parse_options (data.length + 1) ⟨data, o2⟩
    .ok ⟨msg_type, tx_id, options⟩

/-- lib.rs `ClientMsg::encode`: type byte, the three transaction-id
bytes (high to low), then the encoded options. -/
def ClientMsg.encode (m : ClientMsg) : Result (List Nat) := do
  let opts ← encode_options m.options
  .ok (m.msg_type.code % 256 :: m.tx_id / 2 ^ 16 % 256 ::
       m.tx_id / 2 ^ 8 % 256 :: m.tx_id % 256 :: opts)

/-- `optEq` as a propositional relation, for multiset statements. -/
def ROpt (x y : Dhcpv6Option) : Prop := optEq x y = true

/-- Constructor discriminant of an option (used to invert `optEq`:
equal options share a constructor). -/
def optDisc : Dhcpv6Option → Nat
  | .ClientId _ => 0
  | .ServerId _ => 1
  | .IaNa _ _ _ _ => 2
  | .IaTa _ _ => 3
  | .IaAddr _ _ _ _ => 4
  | .Oro _ => 5
  | .Preference _ => 6
  | .ElapsedTime _ => 7
  | .RelayMsg _ => 8
  | .Auth => 9
  | .Unicast _ => 10
  | .StatusCode _ => 11
  | .RapidCommit => 12
  | .UserClass _ => 13
  | .VendorClass _ => 14
  | .VendorOpts _ => 15
  | .InterfaceId _ => 16
  | .ReconfMsg _ => 17
  | .ReconfAccept => 18
  | .DnsServers _ => 19
  | .DomainList _ => 20
  | .Other _ => 21

/-- The option codes with a dedicated variant parser; every other code
falls through to `other_option`. -/
def implementedOptionCodes : List Nat :=
  [1, 2, 3, 4, 5, 6, 7, 8, 9, 11, 12, 13, 14, 15, 16, 17, 18, 19, 20, 23, 24]

/-- Whether the first character of a name (when there is one) is
alphabetic. -/
def firstAlphabetic : List Char → Bool
  | [] => true
  | c :: _ => char_is_ascii_alphabetic c

/-- The domain-name grammar as the specification states it: all
characters ASCII, overall UTF-8 length at most 253 bytes, first
character of the whole name alphabetic, every dot-separated label at
most 63 bytes, and every non-dot character alphanumeric. -/
def domainGrammar (d : List Char) : Bool :=
  d.all char_is_ascii && utf8Len d ≤ 253 &&
  firstAlphabetic d &&
  (splitDot d).all (fun lab => utf8Len lab ≤ 63) &&
  d.all (fun c => c == '.' || char_is_alphanumeric c)

/-- Loop-shaped label-length condition: starting with `size`
characters already counted in the current label, no label ever
exceeds 63 characters. -/
def labelsOkFrom : Nat → List Char → Bool
  | _, [] => true
  | size, c :: r =>
    if c = '.' then labelsOkFrom 0 r
    else size + 1 ≤ 63 && labelsOkFrom (size + 1) r

/-- Whether a status-code parse result is a `BadOption` error. -/
def statusResultIsBadOption : Result (StatusCodeOption × Nat) → Bool
  | .error (.BadOption _) => true
  | _ => false

/-- The round-trip counterexample message: a Solicit whose client-id
option holds a link-layer-only DUID with a 4-byte address. -/
def mC1 : ClientMsg := ⟨.Solicit, 0, [.ClientId (.Ll ⟨3, 1, [10, 11, 12, 13]⟩)]⟩

/-! ### Helper lemmas -/

theorem resBind_ok {α β : Type} (a : α) (f : α → Result β) :
    (Except.ok a : Result α) >>= f = f a := rfl

theorem resBind_err {α β : Type} (e : Error) (f : α → Result β) :
    (Except.error e : Result α) >>= f = .error e := rfl

theorem Buffer.left_eq (b : Buffer) : b.left = b.data.length - b.offset := by
  unfold Buffer.left; split <;> omega

theorem Buffer.left_eq_drop (b : Buffer) : b.left = (b.data.drop b.offset).length := by
  rw [Buffer.left_eq, List.length_drop]

theorem drop_cons_getD {l : List Nat} {n : Nat} {x : Nat} {t : List Nat}
    (h : l.drop n = x :: t) : l.getD n 0 = x := by
  induction n generalizing l with
  | zero => simp only [List.drop_zero] at h; simp [h]
  | succ n ih =>
    cases l with
    | nil => simp at h
    | cons y ys =>
      rw [List.drop_succ_cons] at h
      simpa using ih h

theorem drop_cons_succ {l : List Nat} {n : Nat} {x : Nat} {t : List Nat}
    (h : l.drop n = x :: t) : l.drop (n + 1) = t := by
  induction n generalizing l with
  | zero => simp only [List.drop_zero] at h; simp [h]
  | succ n ih =>
    cases l with
    | nil => simp at h
    | cons y ys =>
      rw [List.drop_succ_cons] at h
      rw [List.drop_succ_cons]
      exact ih h

theorem Buffer.get_8_of_drop {b : Buffer} {x : Nat} {t : List Nat}
    (h : b.data.drop b.offset = x :: t) : b.get_8 = .ok (x, b.offset + 1) := by
  have hl : ¬ b.left < 1 := by rw [Buffer.left_eq_drop, h]; simp
  have hx := drop_cons_getD h
  unfold Buffer.get_8 Buffer.check_size
  rw [if_neg hl, resBind_ok, hx]

theorem Buffer.get_16_of_drop {b : Buffer} {x y : Nat} {t : List Nat}
    (h : b.data.drop b.offset = x :: y :: t) :
    b.get_16 = .ok (x * 2 ^ 8 + y, b.offset + 2) := by
  have hl : ¬ b.left < 2 := by rw [Buffer.left_eq_drop, h]; simp
  have hx := drop_cons_getD h
  have hy := drop_cons_getD (drop_cons_succ h)
  unfold Buffer.get_16 Buffer.check_size
  rw [if_neg hl, resBind_ok, hx, hy]

theorem Buffer.get_32_of_drop {b : Buffer} {x y z w : Nat} {t : List Nat}
    (h : b.data.drop b.offset = x :: y :: z :: w :: t) :
    b.get_32 = .ok (x * 2 ^ 24 + y * 2 ^ 16 + z * 2 ^ 8 + w, b.offset + 4) := by
  have hl : ¬ b.left < 4 := by rw [Buffer.left_eq_drop, h]; simp
  have hx := drop_cons_getD h
  have hy := drop_cons_getD (drop_cons_succ h)
  have hz := drop_cons_getD (drop_cons_succ (drop_cons_succ h))
  have hw := drop_cons_getD (drop_cons_succ (drop_cons_succ (drop_cons_succ h)))
  unfold Buffer.get_32 Buffer.check_size
  rw [if_neg hl, resBind_ok, hx, hy, hz, hw]

theorem Buffer.get_bytes_of_le {b : Buffer} {n : Nat}
    (h : n ≤ (b.data.drop b.offset).length) :
    b.get_bytes n = .ok ((b.data.drop b.offset).take n, b.offset + n) := by
  have hl : ¬ b.left < n := by rw [Buffer.left_eq_drop]; omega
  unfold Buffer.get_bytes Buffer.check_size
  rw [if_neg hl, resBind_ok]

theorem Buffer.get_16_shape {b : Buffer} {v o : Nat} (h : b.get_16 = .ok (v, o)) :
    o = b.offset + 2 := by
  unfold Buffer.get_16 Buffer.check_size at h
  split at h
  · simp [resBind_err] at h
  · rw [resBind_ok] at h
    injection h with h
    rw [Prod.ext_iff] at h
    exact h.2.symm

theorem Buffer.set_offset_shape {b : Buffer} {n o : Nat}
    (h : b.set_offset n = .ok o) : o = n ∧ n ≤ b.data.length := by
  unfold Buffer.set_offset at h
  split at h
  · simp at h
  · rename_i hn
    refine ⟨?_, by omega⟩
    injection h with h; exact h.symm

theorem Buffer.set_offset_of_gt {b : Buffer} {n : Nat}
    (h : b.data.length < n) : b.set_offset n = .error .TooShort := by
  unfold Buffer.set_offset
  rw [if_pos (by omega)]

/-- `u16be` of a two-byte big-endian value gives those bytes back. -/
theorem u16be_decompose {hi lo : Nat} (hh : hi < 256) (hl : lo < 256) :
    u16be (hi * 2 ^ 8 + lo) = [hi, lo] := by
  unfold u16be
  norm_num
  omega

/-- A non-empty `drop` bounds the buffer length from both sides. -/
theorem length_of_drop_cons {l : List Nat} {n x : Nat} {t : List Nat}
    (h : l.drop n = x :: t) : n < l.length ∧ l.length = n + 1 + t.length := by
  have h1 : (l.drop n).length = l.length - n := List.length_drop n l
  rw [h] at h1
  simp at h1
  have h2 : l.drop n ≠ [] := by rw [h]; simp
  have h3 : n < l.length := by
    by_contra hc
    rw [List.drop_eq_nil_of_le (by omega)] at h2
    exact h2 rfl
  omega

/-- The per-code dispatch falls through to `other_option` exactly on
codes without a dedicated parser. -/
theorem parse_variant_aux_unknown (po : Buffer → Result (List Dhcpv6Option × Nat))
    (code len : Nat) (buf : Buffer) (hcode : code ∉ implementedOptionCodes) :
    parse_variant_aux po code len buf = (do
      let (x, o) ← other_option code len buf
      .ok (.Other x, o)) := by
  unfold parse_variant_aux
  split
  all_goals first | rfl | (exfalso; simp [implementedOptionCodes] at hcode)

/-- The option-request read loop succeeds whenever `2 * cnt` bytes
remain, consuming exactly `2 * cnt` bytes and yielding `cnt` codes. -/
theorem vecU16loop_ok : ∀ (cnt : Nat) (b : Buffer),
    2 * cnt ≤ (b.data.drop b.offset).length →
    ∃ v, vecU16loop cnt b = .ok (v, b.offset + 2 * cnt) ∧ v.length = cnt := by
  intro cnt
  induction cnt with
  | zero => exact fun b h => ⟨[], by simp [vecU16loop], rfl⟩
  | succ n ih =>
    intro b h
    match hd : b.data.drop b.offset with
    | [] => rw [hd] at h; simp at h
    | [x] => rw [hd] at h; simp at h; omega
    | x :: y :: t =>
      have h16 := Buffer.get_16_of_drop hd
      have ht : b.data.drop (b.offset + 2) = t := drop_cons_succ (drop_cons_succ hd)
      have hlen : 2 * n ≤ ((Buffer.mk b.data (b.offset + 2)).data.drop
          (Buffer.mk b.data (b.offset + 2)).offset).length := by
        simp only [ht]
        rw [hd] at h
        simp at h ⊢
        omega
      obtain ⟨v, hv, hvl⟩ := ih ⟨b.data, b.offset + 2⟩ hlen
      refine ⟨(x * 2 ^ 8 + y) :: v, ?_, by simp [hvl]⟩
      unfold vecU16loop
      simp only [h16, resBind_ok, hv, resBind_ok]
      have : b.offset + 2 + 2 * n = b.offset + 2 * (n + 1) := by omega
      rw [this]

/-- A successful `parse_one_aux` always lands on the declared end:
at least 4 bytes past the starting offset and inside the buffer. -/
theorem parse_one_aux_progress (po : Buffer → Result (List Dhcpv6Option × Nat))
    (buf : Buffer) {opt : Dhcpv6Option} {o' : Nat}
    (h : parse_one_aux po buf = .ok (opt, o')) :
    buf.offset + 4 ≤ o' ∧ o' ≤ buf.data.length := by
  unfold parse_one_aux at h
  cases hc : buf.get_16 with
  | error e => rw [hc, resBind_err] at h; exact absurd h (by simp)
  | ok p =>
    obtain ⟨code, o1⟩ := p
    have ho1 : o1 = buf.offset + 2 := Buffer.get_16_shape hc
    rw [hc] at h
    simp only [resBind_ok] at h
    cases hc2 : Buffer.get_16 ⟨buf.data, o1⟩ with
    | error e => rw [hc2] at h; simp [resBind_err] at h
    | ok p2 =>
      obtain ⟨len, o2⟩ := p2
      have ho2 : o2 = o1 + 2 := Buffer.get_16_shape hc2
      rw [hc2] at h
      simp only [resBind_ok] at h
      cases hv : parse_variant_aux po code len ⟨buf.data, o2⟩ with
      | error e => rw [hv] at h; simp [resBind_err] at h
      | ok p3 =>
        obtain ⟨opt3, o3⟩ := p3
        rw [hv] at h
        simp only [resBind_ok] at h
        cases hs : Buffer.set_offset ⟨buf.data, o3⟩ (o2 + len) with
        | error e => rw [hs] at h; simp [resBind_err] at h
        | ok o4 =>
          rw [hs] at h
          simp only [resBind_ok] at h
          obtain ⟨hs1, hs2⟩ := Buffer.set_offset_shape hs
          injection h with h
          rw [Prod.ext_iff] at h
          have ho' : o' = o4 := h.2.symm
          subst ho' hs1 ho2 ho1
          simp at hs2 ⊢
          omega

/-! ### Claim C1 -/

/-- C1: the round-trip claim fails on the code.  For the Solicit
message `mC1` whose client id is a link-layer-only DUID with a 4-byte
address, `decode (encode mC1)` succeeds but drops the entire
link-layer address (`DuidLL::parse` reads `len - 6` instead of
`len - 2` bytes), so the result is not equal to `mC1` under the
comparator semantics; and for a message with no options at all,
decoding its own encoding fails with `TooShort` outright, because
`get_24` demands four remaining bytes for the 3-byte transaction id. -/
theorem c1_roundtrip_failure :
    ClientMsg.encode mC1 = .ok [1, 0, 0, 0, 0, 1, 0, 8, 0, 3, 0, 1, 10, 11, 12, 13] ∧
    ClientMsg.decode [1, 0, 0, 0, 0, 1, 0, 8, 0, 3, 0, 1, 10, 11, 12, 13] =
      .ok ⟨.Solicit, 0, [.ClientId (.Ll ⟨3, 1, []⟩)]⟩ ∧
    compare_options mC1.options [.ClientId (.Ll ⟨3, 1, []⟩)] =
      .error (.Other "1 extra options.  1 missing options.") ∧
    ClientMsg.encode ⟨.Solicit, 0, []⟩ = .ok [1, 0, 0, 0] ∧
    ClientMsg.decode [1, 0, 0, 0] = .error .TooShort := by
  refine ⟨?_, by rfl, ?_, ?_, by rfl⟩
  · simp [ClientMsg.encode, encode_options, encode_one, encode_payload, Duid.encode,
      DuidLL.encode, u16be, optCode, MsgType.code, mC1]
    rfl
  · have h : optEq (.ClientId (.Ll ⟨3, 1, [10, 11, 12, 13]⟩)) (.ClientId (.Ll ⟨3, 1, []⟩)) =
        false := by simp [optEq]
    simp [mC1, compare_options, cmpLoop, eraseFirst, eraseFirstMatch, h]
    rfl
  · simp [ClientMsg.encode, encode_options, MsgType.code]
    rfl

/-! ### Claim C2 -/

/-- C2: every cursor read checks exactly the bytes it consumes —
except `get_24`, which checks four bytes but consumes three.  On a
buffer with exactly 3 bytes remaining (where the claim requires the
24-bit read to succeed) it fails with `TooShort`; given a fourth byte
it succeeds, reading the same three bytes and advancing by 3. -/
theorem c2_get24_requires_four_bytes :
    Buffer.left ⟨[0x12, 0x34, 0x56], 0⟩ = 3 ∧
    Buffer.get_24 ⟨[0x12, 0x34, 0x56], 0⟩ = .error .TooShort ∧
    Buffer.get_24 ⟨[0x12, 0x34, 0x56, 0x78], 0⟩ = .ok (0x123456, 3) := by
  exact ⟨rfl, rfl, rfl⟩

/-! ### Claim C3 -/

/-- C3: the class-data encoder does not emit a 2-byte length.  The
`len` field of `ClassData` is a `usize`, so `to_be_bytes` emits eight
bytes; a block of 1 data byte occupies 9 (not 3) encoded bytes, both
for user-class values and (after the enterprise number) for
vendor-class values. -/
theorem c3_classdata_len_is_8_bytes :
    classDataEncode [⟨1, [0xaa]⟩] = [0, 0, 0, 0, 0, 0, 0, 1, 0xaa] ∧
    (classDataEncode [⟨1, [0xaa]⟩]).length = 1 + 8 ∧
    VendorClassOption.encode ⟨7, [⟨1, [0xaa]⟩]⟩ =
      [0, 0, 0, 7, 0, 0, 0, 0, 0, 0, 0, 1, 0xaa] := by
  exact ⟨rfl, rfl, rfl⟩

/-! ### Claim C4 -/

/-- C4 counterexample: an Authentication option (code 11) whose
declared end exceeds the buffer produces `Unimplemented`, not
`TooShort` — the variant parser runs before the end-of-buffer check. -/
theorem c4_auth_overlong_is_unimplemented :
    parse_one 5 ⟨[0, 11, 0, 5], 0⟩ = .error (.Unimplemented "Authentication option") := by
  rfl

/-- C4 (amended): for every option whose declared end exceeds the
buffer length, `parse_one` fails — but the per-code variant parser
runs first, so the error may be the variant parser's own; only when
the variant parser succeeds is the failure the `TooShort` raised by
the final repositioning to the declared end. -/
theorem c4_end_check_after_variant :
    ∀ (f : Nat) (buf : Buffer) (b1 b0 l1 l0 : Nat) (rest : List Nat),
    buf.data.drop buf.offset = b1 :: b0 :: l1 :: l0 :: rest →
    buf.data.length < buf.offset + 4 + (l1 * 2 ^ 8 + l0) →
    (∃ e, parse_one (f + 1) buf = .error e) ∧
    (∀ opt o3,
      parse_variant_aux (fun b => parse_options f b) (b1 * 2 ^ 8 + b0) (l1 * 2 ^ 8 + l0)
        ⟨buf.data, buf.offset + 4⟩ = .ok (opt, o3) →
      parse_one (f + 1) buf = .error .TooShort) := by
  intro f buf b1 b0 l1 l0 rest hdrop hover
  have h1 : buf.get_16 = .ok (b1 * 2 ^ 8 + b0, buf.offset + 2) :=
    Buffer.get_16_of_drop hdrop
  have hd2 : buf.data.drop (buf.offset + 2) = l1 :: l0 :: rest :=
    drop_cons_succ (drop_cons_succ hdrop)
  have h2 : Buffer.get_16 ⟨buf.data, buf.offset + 2⟩ =
      .ok (l1 * 2 ^ 8 + l0, buf.offset + 2 + 2) :=
    Buffer.get_16_of_drop hd2
  have hone : parse_one (f + 1) buf = parse_one_aux (fun b => parse_options f b) buf := rfl
  constructor
  · rw [hone]
    unfold parse_one_aux
    simp only [h1, h2, resBind_ok]
    cases hv : parse_variant_aux (fun b => parse_options f b) (b1 * 2 ^ 8 + b0)
        (l1 * 2 ^ 8 + l0) ⟨buf.data, buf.offset + 2 + 2⟩ with
    | error e => exact ⟨e, by simp [resBind_err]⟩
    | ok r =>
      refine ⟨.TooShort, ?_⟩
      simp only [resBind_ok]
      have hso := @Buffer.set_offset_of_gt ⟨buf.data, r.2⟩
        (buf.offset + 2 + 2 + (l1 * 256 + l0)) (by simp only []; omega)
      norm_num at hso ⊢
      simp [hso, resBind_err]
  · intro opt o3 hv
    rw [hone]
    unfold parse_one_aux
    simp only [h1, h2, resBind_ok]
    have hv' : parse_variant_aux (fun b => parse_options f b) (b1 * 2 ^ 8 + b0)
        (l1 * 2 ^ 8 + l0) ⟨buf.data, buf.offset + 2 + 2⟩ = .ok (opt, o3) := by
      simpa using hv
    simp only [hv', resBind_ok]
    have hso := @Buffer.set_offset_of_gt ⟨buf.data, o3⟩
      (buf.offset + 2 + 2 + (l1 * 256 + l0)) (by simp only []; omega)
    norm_num at hso ⊢
    simp [hso, resBind_err]

/-- C4 amended-claim witness: a RapidCommit option declaring 5 payload
bytes in a 4-byte buffer; its variant parser succeeds, so the failure
is the `TooShort` from the final repositioning. -/
theorem c4_end_check_after_variant_witness :
    (∃ e, parse_one 1 ⟨[0, 14, 0, 5], 0⟩ = .error e) ∧
    (∀ opt o3,
      parse_variant_aux (fun b => parse_options 0 b) (0 * 2 ^ 8 + 14) (0 * 2 ^ 8 + 5)
        ⟨[0, 14, 0, 5], 0 + 4⟩ = .ok (opt, o3) →
      parse_one 1 ⟨[0, 14, 0, 5], 0⟩ = .error .TooShort) :=
  c4_end_check_after_variant 0 ⟨[0, 14, 0, 5], 0⟩ 0 14 0 5 [] rfl (by norm_num)

/-! ### Claim C8 -/

/-- C8 counterexample: a status-code option with numeric code 6 fails
with the generic `Other` kind, not `BadOption`. -/
theorem c8_invalid_status_not_badoption :
    StatusCodeOption.parse 2 ⟨[0, 6], 0⟩ = .error (.Other "invalid status code") ∧
    statusResultIsBadOption (StatusCodeOption.parse 2 ⟨[0, 6], 0⟩) = false := by
  exact ⟨rfl, rfl⟩

/-- C8 (amended): for every status-code option whose 2-byte numeric
code is outside 0..5, parsing fails with the generic
`Other "invalid status code"` error (the source maps the `TryFrom`
failure to `Error::Other`, not `Error::BadOption`). -/
theorem c8_invalid_status_is_other :
    ∀ (len : Nat) (buf : Buffer) (c1 c0 : Nat) (rest : List Nat),
    buf.data.drop buf.offset = c1 :: c0 :: rest →
    5 < c1 * 2 ^ 8 + c0 →
    StatusCodeOption.parse len buf = .error (.Other "invalid status code") := by
  intro len buf c1 c0 rest hdrop hgt
  have h1 : buf.get_16 = .ok (c1 * 2 ^ 8 + c0, buf.offset + 2) :=
    Buffer.get_16_of_drop hdrop
  have htf : StatusCode.tryFrom (c1 * 2 ^ 8 + c0) = none := by
    unfold StatusCode.tryFrom
    split_ifs <;> first | rfl | (exfalso; omega)
  unfold StatusCodeOption.parse
  simp only [h1, resBind_ok, htf]

/-- C8 amended-claim witness at code 9. -/
theorem c8_invalid_status_is_other_witness :
    StatusCodeOption.parse 2 ⟨[0, 9], 0⟩ = .error (.Other "invalid status code") :=
  c8_invalid_status_is_other 2 ⟨[0, 9], 0⟩ 0 9 [] rfl (by norm_num)

/-! ### Claim C5 -/

/-- C5: a TLV whose code has no dedicated parser, and whose declared
payload bytes are present, parses without error to
`Other{code, length, raw bytes}`, the cursor lands on the declared
end, and re-encoding that `Other` value reproduces the original TLV
byte-for-byte. -/
theorem c5_unknown_option_roundtrip :
    ∀ (f : Nat) (buf : Buffer) (b1 b0 l1 l0 : Nat) (rest : List Nat),
    buf.data.drop buf.offset = b1 :: b0 :: l1 :: l0 :: rest →
    b1 < 256 → b0 < 256 → l1 < 256 → l0 < 256 →
    (b1 * 2 ^ 8 + b0) ∉ implementedOptionCodes →
    l1 * 2 ^ 8 + l0 ≤ rest.length →
    parse_one (f + 1) buf =
      .ok (.Other ⟨b1 * 2 ^ 8 + b0, l1 * 2 ^ 8 + l0, rest.take (l1 * 2 ^ 8 + l0)⟩,
        buf.offset + 4 + (l1 * 2 ^ 8 + l0)) ∧
    encode_one (.Other ⟨b1 * 2 ^ 8 + b0, l1 * 2 ^ 8 + l0, rest.take (l1 * 2 ^ 8 + l0)⟩) =
      .ok (b1 :: b0 :: l1 :: l0 :: rest.take (l1 * 2 ^ 8 + l0)) ∧
    (buf.data.drop buf.offset).take (l1 * 2 ^ 8 + l0 + 4) =
      b1 :: b0 :: l1 :: l0 :: rest.take (l1 * 2 ^ 8 + l0) := by
  intro f buf b1 b0 l1 l0 rest hdrop hb1 hb0 hl1 hl0 hcode hlen
  have h1 : buf.get_16 = .ok (b1 * 2 ^ 8 + b0, buf.offset + 2) :=
    Buffer.get_16_of_drop hdrop
  have hd2 : buf.data.drop (buf.offset + 2) = l1 :: l0 :: rest :=
    drop_cons_succ (drop_cons_succ hdrop)
  have h2 : Buffer.get_16 ⟨buf.data, buf.offset + 2⟩ =
      .ok (l1 * 2 ^ 8 + l0, buf.offset + 2 + 2) := Buffer.get_16_of_drop hd2
  have hd4 : buf.data.drop (buf.offset + 2 + 2) = rest := by
    have := drop_cons_succ (drop_cons_succ hd2)
    simpa [Nat.add_assoc] using this
  have hgb : Buffer.get_bytes ⟨buf.data, buf.offset + 2 + 2⟩ (l1 * 2 ^ 8 + l0) =
      .ok (rest.take (l1 * 2 ^ 8 + l0), buf.offset + 2 + 2 + (l1 * 2 ^ 8 + l0)) := by
    have := @Buffer.get_bytes_of_le ⟨buf.data, buf.offset + 2 + 2⟩
      (l1 * 2 ^ 8 + l0) (by simpa [hd4] using hlen)
    simpa [hd4] using this
  have hblen : buf.data.length = buf.offset + 4 + rest.length := by
    have := length_of_drop_cons hdrop
    simp at this
    omega
  have hso : Buffer.set_offset ⟨buf.data, buf.offset + 2 + 2 + (l1 * 2 ^ 8 + l0)⟩
      (buf.offset + 2 + 2 + (l1 * 2 ^ 8 + l0)) =
      .ok (buf.offset + 2 + 2 + (l1 * 2 ^ 8 + l0)) := by
    unfold Buffer.set_offset
    rw [if_neg (by simp; omega)]
  have hone : parse_one (f + 1) buf = parse_one_aux (fun b => parse_options f b) buf := rfl
  refine ⟨?_, ?_, ?_⟩
  · rw [hone]
    unfold parse_one_aux
    simp only [h1, h2, resBind_ok]
    rw [parse_variant_aux_unknown _ _ _ _ hcode]
    unfold other_option
    simp only [hgb, resBind_ok, hso]
  · simp only [encode_one, encode_payload, optCode, resBind_ok]
    have htl : (rest.take (l1 * 2 ^ 8 + l0)).length = l1 * 2 ^ 8 + l0 := by
      simp [List.length_take]; omega
    rw [htl, u16be_decompose hb1 hb0, u16be_decompose hl1 hl0]
    rfl
  · rw [hdrop]
    have : l1 * 2 ^ 8 + l0 + 4 = (l1 * 2 ^ 8 + l0 + 3) + 1 := by omega
    rw [this, List.take_succ_cons]
    have : l1 * 2 ^ 8 + l0 + 3 = (l1 * 2 ^ 8 + l0 + 2) + 1 := by omega
    rw [this, List.take_succ_cons]
    have : l1 * 2 ^ 8 + l0 + 2 = (l1 * 2 ^ 8 + l0 + 1) + 1 := by omega
    rw [this, List.take_succ_cons]
    rw [List.take_succ_cons]

/-- C5 witness: the unassigned code 21 with a 1-byte payload. -/
theorem c5_unknown_option_roundtrip_witness :
    parse_one 1 ⟨[0, 21, 0, 1, 0xaa], 0⟩ =
      .ok (.Other ⟨0 * 2 ^ 8 + 21, 0 * 2 ^ 8 + 1, [0xaa].take (0 * 2 ^ 8 + 1)⟩,
        (Buffer.mk [0, 21, 0, 1, 0xaa] 0).offset + 4 + (0 * 2 ^ 8 + 1)) ∧
    encode_one (.Other ⟨0 * 2 ^ 8 + 21, 0 * 2 ^ 8 + 1, [0xaa].take (0 * 2 ^ 8 + 1)⟩) =
      .ok (0 :: 21 :: 0 :: 1 :: [0xaa].take (0 * 2 ^ 8 + 1)) ∧
    ((Buffer.mk [0, 21, 0, 1, 0xaa] 0).data.drop
        (Buffer.mk [0, 21, 0, 1, 0xaa] 0).offset).take (0 * 2 ^ 8 + 1 + 4) =
      0 :: 21 :: 0 :: 1 :: [0xaa].take (0 * 2 ^ 8 + 1) :=
  c5_unknown_option_roundtrip 0 ⟨[0, 21, 0, 1, 0xaa], 0⟩ 0 21 0 1 [0xaa] rfl
    (by norm_num) (by norm_num) (by norm_num) (by norm_num) (by decide) (by norm_num)

/-! ### Claim C10 -/

/-- C10: an option-request option with an odd declared length, all of
whose declared bytes are present, parses without error to exactly
`len / 2` 16-bit codes, and the cursor is repositioned to the
declared end, silently skipping the trailing odd byte. -/
theorem c10_oro_odd_length :
    ∀ (f : Nat) (buf : Buffer) (l1 l0 : Nat) (rest : List Nat),
    buf.data.drop buf.offset = 0 :: 6 :: l1 :: l0 :: rest →
    (l1 * 2 ^ 8 + l0) % 2 = 1 →
    l1 * 2 ^ 8 + l0 ≤ rest.length →
    ∃ codes, parse_one (f + 1) buf =
        .ok (.Oro codes, buf.offset + 4 + (l1 * 2 ^ 8 + l0)) ∧
      codes.length = (l1 * 2 ^ 8 + l0) / 2 := by
  intro f buf l1 l0 rest hdrop hodd hlen
  have h1 : buf.get_16 = .ok (0 * 2 ^ 8 + 6, buf.offset + 2) := Buffer.get_16_of_drop hdrop
  have hd2 : buf.data.drop (buf.offset + 2) = l1 :: l0 :: rest :=
    drop_cons_succ (drop_cons_succ hdrop)
  have h2 : Buffer.get_16 ⟨buf.data, buf.offset + 2⟩ =
      .ok (l1 * 2 ^ 8 + l0, buf.offset + 2 + 2) := Buffer.get_16_of_drop hd2
  have hd4 : buf.data.drop (buf.offset + 2 + 2) = rest := by
    have := drop_cons_succ (drop_cons_succ hd2)
    simpa [Nat.add_assoc] using this
  have hblen : buf.data.length = buf.offset + 4 + rest.length := by
    have := length_of_drop_cons hdrop
    simp at this
    omega
  have hloop := vecU16loop_ok ((l1 * 2 ^ 8 + l0) / 2) ⟨buf.data, buf.offset + 2 + 2⟩
    (by simp only [hd4]; omega)
  obtain ⟨codes, hv, hcl⟩ := hloop
  refine ⟨codes, ?_, hcl⟩
  have hone : parse_one (f + 1) buf = parse_one_aux (fun b => parse_options f b) buf := rfl
  rw [hone]
  unfold parse_one_aux
  simp only [h1, h2, resBind_ok]
  have hva : parse_variant_aux (fun b => parse_options f b) (0 * 2 ^ 8 + 6) (l1 * 2 ^ 8 + l0)
      ⟨buf.data, buf.offset + 2 + 2⟩ =
      (do
        let (v, o) ← vecU16parse (l1 * 2 ^ 8 + l0) ⟨buf.data, buf.offset + 2 + 2⟩
        .ok (.Oro v, o)) := by norm_num [parse_variant_aux]
  rw [hva]
  unfold vecU16parse
  simp only [hv, resBind_ok]
  have hso : Buffer.set_offset ⟨buf.data, buf.offset + 2 + 2 + 2 * ((l1 * 2 ^ 8 + l0) / 2)⟩
      (buf.offset + 2 + 2 + (l1 * 2 ^ 8 + l0)) =
      .ok (buf.offset + 2 + 2 + (l1 * 2 ^ 8 + l0)) := by
    unfold Buffer.set_offset
    rw [if_neg (by simp; omega)]
  simp only [hso, resBind_ok]

/-- C10 witness: an ORO option with declared length 3 over the bytes
`[0x00, 0x07, 0xff]`. -/
theorem c10_oro_odd_length_witness :
    ∃ codes, parse_one 1 ⟨[0, 6, 0, 3, 0, 7, 0xff], 0⟩ =
        .ok (.Oro codes, (Buffer.mk [0, 6, 0, 3, 0, 7, 0xff] 0).offset + 4 + (0 * 2 ^ 8 + 3)) ∧
      codes.length = (0 * 2 ^ 8 + 3) / 2 :=
  c10_oro_odd_length 0 ⟨[0, 6, 0, 3, 0, 7, 0xff], 0⟩ 0 3 [0, 7, 0xff] rfl
    (by norm_num) (by norm_num)

/-! ### Claim C9 -/

/-- C9: the decode loop makes progress and terminates.  Every
successful `parse_one` lands at least 4 bytes (code plus length
fields) past the starting offset and never outside the buffer, and
consequently a successful `parse_options` can return at most
`left / 4` options — over a finite buffer the loop cannot run
forever. -/
theorem c9_parse_progress :
    (∀ (f : Nat) (buf : Buffer) (opt : Dhcpv6Option) (o' : Nat),
      parse_one f buf = .ok (opt, o') → buf.offset + 4 ≤ o' ∧ o' ≤ buf.data.length) ∧
    (∀ (f : Nat) (buf : Buffer) (opts : List Dhcpv6Option) (o' : Nat),
      parse_options f buf = .ok (opts, o') → 4 * opts.length ≤ buf.left) := by
  constructor
  · intro f buf opt o' h
    cases f with
    | zero => exact absurd h (by simp [parse_one])
    | succ f => exact parse_one_aux_progress _ _ h
  · intro f
    induction f with
    | zero => intro buf opts o' h; exact absurd h (by simp [parse_options])
    | succ f ih =>
      intro buf opts o' h
      unfold parse_options at h
      by_cases hz : buf.left = 0
      · rw [if_pos hz] at h
        injection h with h
        rw [Prod.ext_iff] at h
        have : opts = [] := h.1.symm
        subst this
        simp
      · rw [if_neg hz] at h
        cases hp : parse_one_aux (fun b => parse_options f b) buf with
        | error e => rw [hp] at h; simp [resBind_err] at h
        | ok p =>
          obtain ⟨opt, o1⟩ := p
          rw [hp] at h
          simp only [resBind_ok] at h
          cases hr : parse_options f ⟨buf.data, o1⟩ with
          | error e => rw [hr] at h; simp [resBind_err] at h
          | ok p2 =>
            obtain ⟨opts2, o2⟩ := p2
            rw [hr] at h
            simp only [resBind_ok] at h
            injection h with h
            rw [Prod.ext_iff] at h
            have hopts : opts = opt :: opts2 := h.1.symm
            subst hopts
            have hprog := parse_one_aux_progress _ _ hp
            have hrec := ih ⟨buf.data, o1⟩ opts2 o2 hr
            have hlm : (Buffer.mk buf.data o1).left = buf.data.length - o1 :=
              Buffer.left_eq _
            rw [hlm] at hrec
            rw [Buffer.left_eq]
            simp only [List.length_cons]
            have hbz : buf.offset < buf.data.length := by
              rw [Buffer.left_eq] at hz
              omega
            omega

/-- C9 witness: a minimal RapidCommit option consuming exactly its
4 header bytes. -/
theorem c9_parse_progress_witness :
    (Buffer.mk [0, 14, 0, 0] 0).offset + 4 ≤ 4 ∧
    4 ≤ (Buffer.mk [0, 14, 0, 0] 0).data.length :=
  c9_parse_progress.1 2 ⟨[0, 14, 0, 0], 0⟩ .RapidCommit 4 rfl

/-- Every rejection of the validation loop is a `BadOption`. -/
theorem dvLoop_badoption : ∀ (l : List Char) (first : Bool) (size : Nat) (e : Error),
    dvLoop l first size = .error e → ∃ s, e = .BadOption s := by
  intro l
  induction l with
  | nil => intro first size e h; simp [dvLoop] at h
  | cons c rest ih =>
    intro first size e h
    unfold dvLoop at h
    split_ifs at h with h1 h2 h3 h4 h5
    · injection h with h; exact ⟨_, h.symm⟩
    · injection h with h; exact ⟨_, h.symm⟩
    · exact ih _ _ _ h
    · injection h with h; exact ⟨_, h.symm⟩
    · injection h with h; exact ⟨_, h.symm⟩
    · exact ih _ _ _ h

/-- `split('.')` always yields at least one (possibly empty) chunk. -/
theorem splitDot_ne_nil : ∀ l : List Char, splitDot l ≠ [] := by
  intro l
  cases l with
  | nil => simp [splitDot]
  | cons c r =>
    unfold splitDot
    by_cases h : c = '.'
    · simp [h]
    · rw [if_neg h]
      cases hs : splitDot r <;> simp

/-- The running label-size condition, phrased against the split-off
labels: the current label may use `size` fewer characters, later
labels the full 63. -/
theorem labelsOkFrom_iff : ∀ (l : List Char) (size : Nat), size ≤ 63 →
    (labelsOkFrom size l = true ↔
      (size + ((splitDot l).headD []).length ≤ 63 ∧
       (splitDot l).tail.all (fun lab => lab.length ≤ 63) = true)) := by
  intro l
  induction l with
  | nil =>
    intro size hs
    simp [labelsOkFrom, splitDot]
    omega
  | cons c r ih =>
    intro size hs
    cases hsp : splitDot r with
    | nil => exact absurd hsp (splitDot_ne_nil r)
    | cons h t =>
      by_cases hD : c = '.'
      · subst hD
        rw [show labelsOkFrom size ('.' :: r) = labelsOkFrom 0 r from by simp [labelsOkFrom]]
        rw [show splitDot ('.' :: r) = [] :: splitDot r from by simp [splitDot]]
        rw [ih 0 (by omega), hsp]
        simp only [List.headD_cons, List.tail_cons, List.all_cons, List.length_nil,
          List.length_cons, Bool.and_eq_true, decide_eq_true_eq]
        constructor
        · rintro ⟨h1, h2⟩
          exact ⟨by omega, by omega, h2⟩
        · rintro ⟨_, h1, h2⟩
          exact ⟨by omega, h2⟩
      · have hsd : splitDot (c :: r) = (c :: h) :: t := by
          unfold splitDot
          rw [if_neg hD, hsp]
        rw [hsd]
        rw [show labelsOkFrom size (c :: r) =
          (decide (size + 1 ≤ 63) && labelsOkFrom (size + 1) r) from by
            simp [labelsOkFrom, hD]]
        by_cases hS : size + 1 ≤ 63
        · have hdec : decide (size + 1 ≤ 63) = true := by simp [hS]
          rw [hdec, Bool.true_and, ih (size + 1) hS, hsp]
          simp only [List.headD_cons, List.tail_cons, List.length_cons]
          constructor
          · rintro ⟨h1, h2⟩
            exact ⟨by omega, h2⟩
          · rintro ⟨h1, h2⟩
            exact ⟨by omega, h2⟩
        · have hdec : decide (size + 1 ≤ 63) = false := by simp [hS]
          simp only [hdec, Bool.false_and, List.headD_cons, List.tail_cons, List.length_cons]
          constructor
          · intro hc
            exact absurd hc (by simp)
          · rintro ⟨h1, h2⟩
            exfalso
            omega

/-- From a fresh label, the loop condition is exactly "every label at
most 63 characters". -/
theorem labelsOkFrom_zero (l : List Char) :
    labelsOkFrom 0 l = true ↔ (splitDot l).all (fun lab => lab.length ≤ 63) = true := by
  rw [labelsOkFrom_iff l 0 (by omega)]
  cases hsp : splitDot l with
  | nil => exact absurd hsp (splitDot_ne_nil l)
  | cons h t =>
    simp [List.all_cons]

/-- Characters of any split-off label are characters of the name. -/
theorem splitDot_chars : ∀ (l : List Char) (lab : List Char), lab ∈ splitDot l →
    ∀ c ∈ lab, c ∈ l := by
  intro l
  induction l with
  | nil =>
    intro lab hlab c hc
    simp [splitDot] at hlab
    subst hlab
    simp at hc
  | cons x r ih =>
    intro lab hlab c hc
    by_cases hD : x = '.'
    · rw [show splitDot (x :: r) = [] :: splitDot r from by simp [splitDot, hD]] at hlab
      rcases List.mem_cons.mp hlab with h | h
      · subst h; simp at hc
      · exact List.mem_cons_of_mem _ (ih lab h c hc)
    · cases hsp : splitDot r with
      | nil => exact absurd hsp (splitDot_ne_nil r)
      | cons h t =>
        have hsd : splitDot (x :: r) = (x :: h) :: t := by
          unfold splitDot
          rw [if_neg hD, hsp]
        rw [hsd] at hlab
        rcases List.mem_cons.mp hlab with hl | hl
        · subst hl
          rcases List.mem_cons.mp hc with hcx | hch
          · subst hcx; simp
          · exact List.mem_cons_of_mem _ (ih h (by rw [hsp]; simp) c hch)
        · exact List.mem_cons_of_mem _ (ih lab (by rw [hsp]; simp [hl]) c hc)

/-- For all-ASCII text the UTF-8 byte length is the character
count. -/
theorem utf8Len_eq_length (lab : List Char)
    (h : ∀ c ∈ lab, char_is_ascii c = true) : utf8Len lab = lab.length := by
  induction lab with
  | nil => rfl
  | cons c r ih =>
    have hc := h c (by simp)
    have h1 : utf8CharLen c = 1 := by
      unfold utf8CharLen
      rw [if_pos]
      unfold char_is_ascii at hc
      simp at hc
      omega
    have hr := ih (fun c hc => h c (by simp [hc]))
    unfold utf8Len at hr ⊢
    rw [List.map_cons, List.sum_cons, h1, List.length_cons]
    omega

/-- The validation loop succeeds exactly on all-ASCII text whose
first character is alphabetic (when the `first` flag is still set),
whose labels fit in 63 characters (with `size` already used in the
current label), and whose non-dot characters are alphanumeric. -/
theorem dvLoop_ok_iff : ∀ (l : List Char) (first : Bool) (size : Nat), size ≤ 63 →
    (dvLoop l first size = .ok () ↔
      (l.all char_is_ascii = true ∧ (first = true → firstAlphabetic l = true) ∧
       labelsOkFrom size l = true ∧
       l.all (fun c => c == '.' || char_is_alphanumeric c) = true)) := by
  intro l
  induction l with
  | nil =>
    intro first size hs
    simp [dvLoop, labelsOkFrom, firstAlphabetic]
  | cons c rest ih =>
    intro first size hs
    unfold dvLoop
    by_cases hA : char_is_ascii c = true
    case neg =>
      rw [if_pos (by simp [Bool.not_eq_true] at hA; simp [hA])]
      simp [List.all_cons, Bool.not_eq_true] at hA ⊢
      intro hc
      rw [hc] at hA
      exact absurd hA (by simp)
    case pos =>
      rw [if_neg (by simp [hA])]
      by_cases hFA : (first && !char_is_ascii_alphabetic c) = true
      · rw [if_pos hFA]
        simp only [Bool.and_eq_true, Bool.not_eq_eq_eq_not, Bool.not_true] at hFA
        obtain ⟨hf, ha⟩ := hFA
        subst hf
        simp [firstAlphabetic, ha]
      · rw [if_neg hFA]
        by_cases hD : c = '.'
        · rw [if_pos hD]
          subst hD
          have hf : first = false := by
            cases hff : first
            · rfl
            · exfalso
              apply hFA
              rw [hff]
              simp [show char_is_ascii_alphabetic '.' = false from by decide]
          subst hf
          rw [ih false 0 (by omega)]
          rw [show labelsOkFrom size ('.' :: rest) = labelsOkFrom 0 rest from by
            simp [labelsOkFrom]]
          simp [List.all_cons, hA]
        · rw [if_neg hD]
          by_cases hS : size + 1 > 63
          · rw [if_pos hS]
            rw [show labelsOkFrom size (c :: rest) =
              (decide (size + 1 ≤ 63) && labelsOkFrom (size + 1) rest) from by
                simp [labelsOkFrom, hD]]
            have hdec : decide (size + 1 ≤ 63) = false := by simp; omega
            simp only [hdec, Bool.false_and]
            constructor
            · intro hc
              exact absurd hc (by simp)
            · rintro ⟨_, _, hfalse, _⟩
              exact absurd hfalse (by simp)
          · rw [if_neg hS]
            by_cases hN : char_is_alphanumeric c = true
            case neg =>
              rw [if_pos (by simp [Bool.not_eq_true] at hN; simp [hN])]
              simp [Bool.not_eq_true] at hN
              have hbe : (c == '.') = false := by
                simp [hD]
              simp [List.all_cons, hbe, hN]
            case pos =>
              rw [if_neg (by simp [hN])]
              rw [ih false (size + 1) (by omega)]
              rw [show labelsOkFrom size (c :: rest) =
                (decide (size + 1 ≤ 63) && labelsOkFrom (size + 1) rest) from by
                  simp [labelsOkFrom, hD]]
              have hdec : decide (size + 1 ≤ 63) = true := by simp; omega
              have himp : first = true → char_is_ascii_alphabetic c = true := by
                intro hf
                cases hal : char_is_ascii_alphabetic c
                · exfalso; apply hFA; rw [hf, hal]; rfl
                · rfl
              rw [hdec, Bool.true_and]
              simp only [List.all_cons, Bool.and_eq_true, hA, true_and, hN, Bool.or_true,
                firstAlphabetic]
              constructor
              · rintro ⟨h1, _, h3, h4⟩
                exact ⟨h1, fun hf => himp hf, h3, h4⟩
              · rintro ⟨h1, _, h3, h4⟩
                exact ⟨h1, fun hf => by simp at hf, h3, h4⟩

/-! ### Claim C7 -/

/-- C7: domain-name validation accepts exactly the names satisfying
the grammar (all-ASCII, UTF-8 length at most 253, alphabetic first
character, dot-separated labels of at most 63 bytes, alphanumeric
non-dot characters), and every rejection is a `BadOption` error. -/
theorem c7_domain_validate_iff : ∀ d : List Char,
    (domain_validate d = .ok () ↔ domainGrammar d = true) ∧
    (∀ e, domain_validate d = .error e → ∃ s, e = .BadOption s) := by
  intro d
  constructor
  · unfold domain_validate
    by_cases hLen : utf8Len d > 253
    · rw [if_pos hLen]
      simp [domainGrammar]
      intro _ h
      exfalso
      omega
    · rw [if_neg hLen]
      rw [dvLoop_ok_iff d true 0 (by omega)]
      unfold domainGrammar
      simp only [Bool.and_eq_true, decide_eq_true_eq]
      constructor
      · rintro ⟨h1, h2, h3, h4⟩
        have hlab : (splitDot d).all (fun lab => lab.length ≤ 63) = true :=
          (labelsOkFrom_zero d).mp h3
        refine ⟨⟨⟨⟨h1, by omega⟩, h2 trivial⟩, ?_⟩, h4⟩
        rw [List.all_eq_true] at hlab ⊢
        intro lab hmem
        have := hlab lab hmem
        simp at this ⊢
        rw [utf8Len_eq_length lab (fun c hc => by
          rw [List.all_eq_true] at h1
          exact h1 c (splitDot_chars d lab hmem c hc))]
        omega
      · rintro ⟨⟨⟨⟨h1, _⟩, h3⟩, h4⟩, h5⟩
        refine ⟨h1, fun _ => h3, ?_, h5⟩
        rw [labelsOkFrom_zero d]
        rw [List.all_eq_true] at h4 ⊢
        intro lab hmem
        have := h4 lab hmem
        simp at this ⊢
        rw [← utf8Len_eq_length lab (fun c hc => by
          rw [List.all_eq_true] at h1
          exact h1 c (splitDot_chars d lab hmem c hc))]
        omega
  · intro e h
    unfold domain_validate at h
    split_ifs at h with h1
    · injection h with h
      exact ⟨_, h.symm⟩
    · exact dvLoop_badoption d true 0 e h

/-- C7 witness: a name of exactly 253 bytes with three 63-byte labels
is accepted, and a name starting with a digit is rejected with
`BadOption`. -/
theorem c7_domain_validate_iff_witness :
    domain_validate (List.replicate 63 'a' ++ '.' ::
        (List.replicate 63 'a' ++ '.' ::
          (List.replicate 63 'a' ++ '.' :: List.replicate 61 'a'))) = .ok () ∧
    (∃ s, Error.BadOption "domain doesn\x27t start with a letter" = .BadOption s) :=
  ⟨(c7_domain_validate_iff _).1.mpr (by rfl),
   (c7_domain_validate_iff ['1']).2 _ (by rfl)⟩



theorem eraseFirstMatch_some : ∀ {x : Dhcpv6Option} {l : List Dhcpv6Option}
    {r : {r : List Dhcpv6Option // sizeOf r < sizeOf l}},
    eraseFirstMatch x l = some r →
    ∃ z, ROpt x z ∧ z ∈ l ∧ (↑l : Multiset Dhcpv6Option) = z ::ₘ ↑r.val ∧
      l.length = r.val.length + 1 ∧ ∀ v ∈ r.val, v ∈ l := by
  intro x l
  induction l with
  | nil => intro r h; simp [eraseFirstMatch] at h
  | cons y ys ih =>
    intro r h
    by_cases hxy : optEq x y = true
    · simp only [eraseFirstMatch, hxy, if_true] at h
      injection h with h
      refine ⟨y, hxy, by simp, ?_, ?_, ?_⟩
      · rw [← h]; simp [Multiset.cons_coe]
      · rw [← h]; simp
      · rw [← h]; intro v hv; simp [hv]
    · have hxy' : optEq x y = false := by simpa using hxy
      cases he : eraseFirstMatch x ys with
      | none =>
        simp only [eraseFirstMatch, hxy', Bool.false_eq_true, if_false, he] at h
        exact absurd h (by simp)
      | some r' =>
        simp only [eraseFirstMatch, hxy', Bool.false_eq_true, if_false, he] at h
        injection h with h
        obtain ⟨z, hz, hzys, hmul, hlen, hsub⟩ := ih he
        have hrv : r.val = y :: r'.val := by rw [← h]
        refine ⟨z, hz, by simp [hzys], ?_, ?_, ?_⟩
        · rw [hrv]
          have h1 : (↑(y :: ys) : Multiset Dhcpv6Option) = y ::ₘ ↑ys := by
            simp [Multiset.cons_coe]
          have h2 : (↑(y :: r'.val) : Multiset Dhcpv6Option) = y ::ₘ ↑r'.val := by
            simp [Multiset.cons_coe]
          rw [h1, h2, hmul, Multiset.cons_swap]
        · rw [hrv]; simp; omega
        · rw [hrv]
          intro v hv
          rcases List.mem_cons.mp hv with hv | hv
          · simp [hv]
          · simp [hsub v hv]

theorem eraseFirstMatch_isSome : ∀ {x : Dhcpv6Option} {l : List Dhcpv6Option},
    (∃ y ∈ l, ROpt x y) → (eraseFirstMatch x l).isSome := by
  intro x l
  induction l with
  | nil => rintro ⟨y, hy, _⟩; simp at hy
  | cons z zs ih =>
    rintro ⟨y, hy, hxy⟩
    by_cases hxz : optEq x z = true
    · simp [eraseFirstMatch, hxz]
    · have hxz' : optEq x z = false := by simpa using hxz
      rcases List.mem_cons.mp hy with hyz | hyzs
      · subst hyz; exact absurd hxy hxz
      · have hs := ih ⟨y, hyzs, hxy⟩
        cases he : eraseFirstMatch x zs with
        | none => rw [he] at hs; simp at hs
        | some r' =>
          simp [eraseFirstMatch, hxz', he]

set_option maxHeartbeats 2000000 in
theorem optEq_disc : ∀ (x y : Dhcpv6Option), optEq x y = true → optDisc x = optDisc y := by
  intro x y
  cases x <;> cases y <;> intro h <;> first | rfl | simp [optEq] at h

theorem rel_refl_of {l : List Dhcpv6Option} (h : ∀ u ∈ l, ROpt u u) :
    Multiset.Rel ROpt ↑l ↑l := by
  induction l with
  | nil => exact Multiset.Rel.zero
  | cons a s ih =>
    have : (↑(a :: s) : Multiset Dhcpv6Option) = a ::ₘ ↑s := by simp
    rw [this]
    exact Multiset.Rel.cons (h a (by simp)) (ih (fun u hu => h u (by simp [hu])))

theorem rel_symm_of : ∀ {s t : Multiset Dhcpv6Option},
    (∀ u ∈ s, ∀ v ∈ t, ROpt u v → ROpt v u) →
    Multiset.Rel ROpt s t → Multiset.Rel ROpt t s := by
  intro s
  induction s using Multiset.induction with
  | empty =>
    intro t _ h
    rw [Multiset.rel_zero_left] at h
    subst h
    exact Multiset.Rel.zero
  | cons a s ih =>
    intro t hsym h
    rw [Multiset.rel_cons_left] at h
    obtain ⟨b, t', hab, hrel, ht⟩ := h
    subst ht
    exact Multiset.Rel.cons (hsym a (by simp) b (by simp) hab)
      (ih (fun u hu v hv => hsym u (by simp [hu]) v (by simp [hv])) hrel)

theorem rel_trans_of : ∀ {s t u : Multiset Dhcpv6Option},
    (∀ p ∈ s, ∀ q ∈ t, ∀ w ∈ u, ROpt p q → ROpt q w → ROpt p w) →
    Multiset.Rel ROpt s t → Multiset.Rel ROpt t u → Multiset.Rel ROpt s u := by
  intro s
  induction s using Multiset.induction with
  | empty =>
    intro t u _ hst htu
    rw [Multiset.rel_zero_left] at hst
    subst hst
    rw [Multiset.rel_zero_left] at htu
    subst htu
    exact Multiset.Rel.zero
  | cons a s ih =>
    intro t u htr hst htu
    rw [Multiset.rel_cons_left] at hst
    obtain ⟨b, t', hab, hrel, ht⟩ := hst
    subst ht
    rw [Multiset.rel_cons_left] at htu
    obtain ⟨c, u', hbc, hrel', hu⟩ := htu
    subst hu
    refine Multiset.Rel.cons
      (htr a (by simp) b (by simp) c (by simp) hab hbc)
      (ih (fun p hp q hq w hw => htr p (by simp [hp]) q (by simp [hq]) w (by simp [hw]))
        hrel hrel')

theorem rel_cons_elim {s t0 : Multiset Dhcpv6Option} {x z : Dhcpv6Option}
    (hsym : ∀ p q, (p ∈ x ::ₘ s ∨ p ∈ z ::ₘ t0) → (q ∈ x ::ₘ s ∨ q ∈ z ::ₘ t0) →
      ROpt p q → ROpt q p)
    (htr : ∀ p q w, (p ∈ x ::ₘ s ∨ p ∈ z ::ₘ t0) → (q ∈ x ::ₘ s ∨ q ∈ z ::ₘ t0) →
      (w ∈ x ::ₘ s ∨ w ∈ z ::ₘ t0) → ROpt p q → ROpt q w → ROpt p w)
    (hrel : Multiset.Rel ROpt (x ::ₘ s) (z ::ₘ t0)) (hxz : ROpt x z) :
    Multiset.Rel ROpt s t0 := by
  rw [Multiset.rel_cons_left] at hrel
  obtain ⟨y, t', hxy, hst', ht⟩ := hrel
  by_cases hzy : z = y
  · subst hzy
    have ht0 : t0 = t' := (Multiset.cons_inj_right z).mp ht
    subst ht0
    exact hst'
  · have hyz : y ∈ z ::ₘ t0 := by rw [ht]; simp
    have hzt' : z ∈ t' := by
      have hz0 : z ∈ y ::ₘ t' := by rw [← ht]; simp
      rcases Multiset.mem_cons.mp hz0 with h | h
      · exact absurd h hzy
      · exact h
    obtain ⟨t'', ht''⟩ := Multiset.exists_cons_of_mem hzt'
    subst ht''
    have ht0 : t0 = y ::ₘ t'' := by
      have h1 : z ::ₘ t0 = z ::ₘ y ::ₘ t'' := by
        rw [ht, Multiset.cons_swap]
      exact (Multiset.cons_inj_right z).mp h1
    subst ht0
    rw [Multiset.rel_cons_right] at hst'
    obtain ⟨w, s', hwz, hs't'', hs⟩ := hst'
    subst hs
    have hzm : z ∈ z ::ₘ y ::ₘ t'' := by simp
    have hym : y ∈ (z ::ₘ y ::ₘ t'' : Multiset Dhcpv6Option) := by simp
    have hzx : ROpt z x := hsym x z (Or.inl (by simp)) (Or.inr hzm) hxz
    have hzy' : ROpt z y := htr z x y (Or.inr hzm) (Or.inl (by simp)) (Or.inr hym) hzx hxy
    have hwy : ROpt w y := htr w z y (Or.inl (by simp)) (Or.inr hzm) (Or.inr hym) hwz hzy'
    exact Multiset.Rel.cons hwy hs't''

theorem matchLoop_to_rel : ∀ (a b : List Dhcpv6Option),
    matchLoop a b = true → Multiset.Rel ROpt ↑a ↑b := by
  intro a
  induction a with
  | nil =>
    intro b h
    simp only [matchLoop, List.isEmpty_iff] at h
    subst h
    exact Multiset.Rel.zero
  | cons x xs ih =>
    intro b h
    cases he : eraseFirstMatch x b with
    | none => rw [show matchLoop (x :: xs) b = false from by simp [matchLoop, he]] at h; simp at h
    | some r =>
      rw [show matchLoop (x :: xs) b = matchLoop xs r.val from by simp [matchLoop, he]] at h
      obtain ⟨z, hz, hzb, hmul, _, _⟩ := eraseFirstMatch_some he
      rw [show (↑(x :: xs) : Multiset Dhcpv6Option) = x ::ₘ ↑xs from by simp, hmul]
      exact Multiset.Rel.cons hz (ih r.val h)

theorem rel_to_matchLoop : ∀ (a b : List Dhcpv6Option),
    (∀ u v, (u ∈ a ∨ u ∈ b) → (v ∈ a ∨ v ∈ b) → ROpt u v → ROpt v u) →
    (∀ u v w, (u ∈ a ∨ u ∈ b) → (v ∈ a ∨ v ∈ b) → (w ∈ a ∨ w ∈ b) →
      ROpt u v → ROpt v w → ROpt u w) →
    Multiset.Rel ROpt ↑a ↑b → matchLoop a b = true := by
  intro a
  induction a with
  | nil =>
    intro b _ _ h
    rw [show (↑([] : List Dhcpv6Option) : Multiset Dhcpv6Option) = 0 from by simp] at h
    rw [Multiset.rel_zero_left] at h
    have : b = [] := by
      have := congrArg Multiset.card h.symm
      simp at this
      exact List.eq_nil_of_length_eq_zero this.symm
    subst this
    simp [matchLoop]
  | cons x xs ih =>
    intro b hsym htr h
    have hcons : Multiset.Rel ROpt (x ::ₘ ↑xs) ↑b := by
      rw [show x ::ₘ (↑xs : Multiset Dhcpv6Option) = ↑(x :: xs) from by simp]
      exact h
    obtain ⟨y, bs', hxy, _, hb⟩ := Multiset.rel_cons_left.mp hcons
    have hyb : y ∈ b := by
      have : y ∈ (↑b : Multiset Dhcpv6Option) := by rw [hb]; simp
      simpa using this
    have hsome := eraseFirstMatch_isSome ⟨y, hyb, hxy⟩
    cases he : eraseFirstMatch x b with
    | none => rw [he] at hsome; simp at hsome
    | some r =>
      obtain ⟨z, hz, hzb, hmul, hlen, hsub⟩ := eraseFirstMatch_some he
      rw [hmul] at hcons
      have herase : Multiset.Rel ROpt ↑xs ↑r.val := by
        refine rel_cons_elim ?_ ?_ hcons hz
        · intro p q hp hq
          refine hsym p q ?_ ?_
          · rcases hp with hp | hp
            · rcases Multiset.mem_cons.mp hp with hp | hp
              · subst hp; exact Or.inl (by simp)
              · exact Or.inl (by simp [Multiset.mem_coe.mp hp])
            · rcases Multiset.mem_cons.mp hp with hp | hp
              · subst hp; exact Or.inr hzb
              · exact Or.inr (hsub p (Multiset.mem_coe.mp hp))
          · rcases hq with hq | hq
            · rcases Multiset.mem_cons.mp hq with hq | hq
              · subst hq; exact Or.inl (by simp)
              · exact Or.inl (by simp [Multiset.mem_coe.mp hq])
            · rcases Multiset.mem_cons.mp hq with hq | hq
              · subst hq; exact Or.inr hzb
              · exact Or.inr (hsub q (Multiset.mem_coe.mp hq))
        · intro p q w hp hq hw
          refine htr p q w ?_ ?_ ?_
          · rcases hp with hp | hp
            · rcases Multiset.mem_cons.mp hp with hp | hp
              · subst hp; exact Or.inl (by simp)
              · exact Or.inl (by simp [Multiset.mem_coe.mp hp])
            · rcases Multiset.mem_cons.mp hp with hp | hp
              · subst hp; exact Or.inr hzb
              · exact Or.inr (hsub p (Multiset.mem_coe.mp hp))
          · rcases hq with hq | hq
            · rcases Multiset.mem_cons.mp hq with hq | hq
              · subst hq; exact Or.inl (by simp)
              · exact Or.inl (by simp [Multiset.mem_coe.mp hq])
            · rcases Multiset.mem_cons.mp hq with hq | hq
              · subst hq; exact Or.inr hzb
              · exact Or.inr (hsub q (Multiset.mem_coe.mp hq))
          · rcases hw with hw | hw
            · rcases Multiset.mem_cons.mp hw with hw | hw
              · subst hw; exact Or.inl (by simp)
              · exact Or.inl (by simp [Multiset.mem_coe.mp hw])
            · rcases Multiset.mem_cons.mp hw with hw | hw
              · subst hw; exact Or.inr hzb
              · exact Or.inr (hsub w (Multiset.mem_coe.mp hw))
      rw [show matchLoop (x :: xs) b = matchLoop xs r.val from by simp [matchLoop, he]]
      refine ih r.val ?_ ?_ herase
      · intro u v hu hv
        refine hsym u v ?_ ?_
        · rcases hu with hu | hu
          · exact Or.inl (by simp [hu])
          · exact Or.inr (hsub u hu)
        · rcases hv with hv | hv
          · exact Or.inl (by simp [hv])
          · exact Or.inr (hsub v hv)
      · intro u v w hu hv hw
        refine htr u v w ?_ ?_ ?_
        · rcases hu with hu | hu
          · exact Or.inl (by simp [hu])
          · exact Or.inr (hsub u hu)
        · rcases hv with hv | hv
          · exact Or.inl (by simp [hv])
          · exact Or.inr (hsub v hv)
        · rcases hw with hw | hw
          · exact Or.inl (by simp [hw])
          · exact Or.inr (hsub w hw)

/-- Matching a list against itself succeeds when every element is
self-equal under `optEq`. -/
theorem matchLoop_self : ∀ l : List Dhcpv6Option, (∀ u ∈ l, optEq u u = true) →
    matchLoop l l = true := by
  intro l
  induction l with
  | nil => intro _; simp [matchLoop]
  | cons u us ih =>
    intro h
    have hu : optEq u u = true := h u (List.mem_cons_self u us)
    have he : eraseFirstMatch u (u :: us) =
        some ⟨us, by simp only [List.cons.sizeOf_spec]; omega⟩ := by
      simp [eraseFirstMatch, hu]
    rw [show matchLoop (u :: us) (u :: us) = matchLoop us us from by simp [matchLoop, he]]
    exact ih (fun v hv => h v (List.mem_cons_of_mem u hv))

theorem matchLoop_symm_aux (os os2 : List Dhcpv6Option)
    (hsym : ∀ u v, (u ∈ os ∨ u ∈ os2) → (v ∈ os ∨ v ∈ os2) → ROpt u v → ROpt v u)
    (htr : ∀ u v w, (u ∈ os ∨ u ∈ os2) → (v ∈ os ∨ v ∈ os2) → (w ∈ os ∨ w ∈ os2) →
      ROpt u v → ROpt v w → ROpt u w)
    (h : matchLoop os os2 = true) : matchLoop os2 os = true := by
  refine rel_to_matchLoop os2 os ?_ ?_ ?_
  · intro u v hu hv
    exact hsym u v hu.symm hv.symm
  · intro u v w hu hv hw
    exact htr u v w hu.symm hv.symm hw.symm
  · refine rel_symm_of ?_ (matchLoop_to_rel os os2 h)
    intro u hu v hv huv
    exact hsym u v (Or.inl (Multiset.mem_coe.mp hu)) (Or.inr (Multiset.mem_coe.mp hv)) huv

theorem matchLoop_trans_aux (os os2 os3 : List Dhcpv6Option)
    (hsym : ∀ u v, (u ∈ os ∨ u ∈ os2 ∨ u ∈ os3) → (v ∈ os ∨ v ∈ os2 ∨ v ∈ os3) →
      ROpt u v → ROpt v u)
    (htr : ∀ u v w, (u ∈ os ∨ u ∈ os2 ∨ u ∈ os3) → (v ∈ os ∨ v ∈ os2 ∨ v ∈ os3) →
      (w ∈ os ∨ w ∈ os2 ∨ w ∈ os3) → ROpt u v → ROpt v w → ROpt u w)
    (h1 : matchLoop os os2 = true) (h2 : matchLoop os2 os3 = true) :
    matchLoop os os3 = true := by
  have r1 := matchLoop_to_rel os os2 h1
  have r2 := matchLoop_to_rel os2 os3 h2
  have r3 : Multiset.Rel ROpt ↑os ↑os3 := by
    refine rel_trans_of ?_ r1 r2
    intro p hp q hq w hw hpq hqw
    exact htr p q w (Or.inl (Multiset.mem_coe.mp hp))
      (Or.inr (Or.inl (Multiset.mem_coe.mp hq)))
      (Or.inr (Or.inr (Multiset.mem_coe.mp hw))) hpq hqw
  refine rel_to_matchLoop os os3 ?_ ?_ r3
  · intro u v hu hv
    refine hsym u v ?_ ?_
    · rcases hu with h | h
      · exact Or.inl h
      · exact Or.inr (Or.inr h)
    · rcases hv with h | h
      · exact Or.inl h
      · exact Or.inr (Or.inr h)
  · intro u v w hu hv hw
    refine htr u v w ?_ ?_ ?_
    · rcases hu with h | h
      · exact Or.inl h
      · exact Or.inr (Or.inr h)
    · rcases hv with h | h
      · exact Or.inl h
      · exact Or.inr (Or.inr h)
    · rcases hw with h | h
      · exact Or.inl h
      · exact Or.inr (Or.inr h)

theorem sizeOf_field_lt_iana {i t1 t2 : Nat} {os : List Dhcpv6Option} :
    sizeOf os < sizeOf (Dhcpv6Option.IaNa i t1 t2 os) := by
  simp only [Dhcpv6Option.IaNa.sizeOf_spec]; omega

theorem sizeOf_field_lt_iata {i : Nat} {os : List Dhcpv6Option} :
    sizeOf os < sizeOf (Dhcpv6Option.IaTa i os) := by
  simp only [Dhcpv6Option.IaTa.sizeOf_spec]; omega

theorem sizeOf_field_lt_iaaddr {a : List Nat} {p v : Nat} {os : List Dhcpv6Option} :
    sizeOf os < sizeOf (Dhcpv6Option.IaAddr a p v os) := by
  simp only [Dhcpv6Option.IaAddr.sizeOf_spec]; omega

theorem optEq_refl_iana {n i t1 t2 : Nat} {os : List Dhcpv6Option}
    (hR : ∀ u : Dhcpv6Option, sizeOf u < n → optEq u u = true)
    (hx : sizeOf (Dhcpv6Option.IaNa i t1 t2 os) ≤ n) :
    optEq (.IaNa i t1 t2 os) (.IaNa i t1 t2 os) = true := by
  have hos : sizeOf os < n := lt_of_lt_of_le sizeOf_field_lt_iana hx
  simp only [optEq, Bool.and_eq_true, beq_iff_eq, eq_self_iff_true, true_and, and_true]
  exact matchLoop_self os
    (fun u hu => hR u ((List.sizeOf_lt_of_mem hu).trans hos))

theorem optEq_refl_iata {n i : Nat} {os : List Dhcpv6Option}
    (hR : ∀ u : Dhcpv6Option, sizeOf u < n → optEq u u = true)
    (hx : sizeOf (Dhcpv6Option.IaTa i os) ≤ n) :
    optEq (.IaTa i os) (.IaTa i os) = true := by
  have hos : sizeOf os < n := lt_of_lt_of_le sizeOf_field_lt_iata hx
  simp only [optEq, Bool.and_eq_true, beq_iff_eq, eq_self_iff_true, true_and, and_true]
  exact matchLoop_self os
    (fun u hu => hR u ((List.sizeOf_lt_of_mem hu).trans hos))

theorem optEq_refl_iaaddr {n : Nat} {a : List Nat} {p v : Nat} {os : List Dhcpv6Option}
    (hR : ∀ u : Dhcpv6Option, sizeOf u < n → optEq u u = true)
    (hx : sizeOf (Dhcpv6Option.IaAddr a p v os) ≤ n) :
    optEq (.IaAddr a p v os) (.IaAddr a p v os) = true := by
  have hos : sizeOf os < n := lt_of_lt_of_le sizeOf_field_lt_iaaddr hx
  simp only [optEq, Bool.and_eq_true, beq_iff_eq, eq_self_iff_true, true_and, and_true]
  exact matchLoop_self os
    (fun u hu => hR u ((List.sizeOf_lt_of_mem hu).trans hos))

theorem optEq_symm_iana {n i t1 t2 i2 t12 t22 : Nat} {os os2 : List Dhcpv6Option}
    (hS : ∀ u v : Dhcpv6Option, sizeOf u < n → sizeOf v < n →
      optEq u v = true → optEq v u = true)
    (hT : ∀ u v w : Dhcpv6Option, sizeOf u < n → sizeOf v < n → sizeOf w < n →
      optEq u v = true → optEq v w = true → optEq u w = true)
    (hx : sizeOf (Dhcpv6Option.IaNa i t1 t2 os) ≤ n)
    (hy : sizeOf (Dhcpv6Option.IaNa i2 t12 t22 os2) ≤ n)
    (h : optEq (.IaNa i t1 t2 os) (.IaNa i2 t12 t22 os2) = true) :
    optEq (.IaNa i2 t12 t22 os2) (.IaNa i t1 t2 os) = true := by
  have hos : sizeOf os < n := lt_of_lt_of_le sizeOf_field_lt_iana hx
  have hos2 : sizeOf os2 < n := lt_of_lt_of_le sizeOf_field_lt_iana hy
  have hmem : ∀ u : Dhcpv6Option, (u ∈ os ∨ u ∈ os2) → sizeOf u < n := by
    rintro u (h | h)
    · exact (List.sizeOf_lt_of_mem h).trans hos
    · exact (List.sizeOf_lt_of_mem h).trans hos2
  simp only [optEq, Bool.and_eq_true, beq_iff_eq] at h ⊢
  obtain ⟨⟨⟨hi, h1⟩, h2⟩, hlen, hml⟩ := h
  refine ⟨⟨⟨hi.symm, h1.symm⟩, h2.symm⟩, hlen.symm, ?_⟩
  refine matchLoop_symm_aux os os2 ?_ ?_ hml
  · intro u v hu hv
    exact hS u v (hmem u hu) (hmem v hv)
  · intro u v w hu hv hw
    exact hT u v w (hmem u hu) (hmem v hv) (hmem w hw)

theorem optEq_symm_iata {n i i2 : Nat} {os os2 : List Dhcpv6Option}
    (hS : ∀ u v : Dhcpv6Option, sizeOf u < n → sizeOf v < n →
      optEq u v = true → optEq v u = true)
    (hT : ∀ u v w : Dhcpv6Option, sizeOf u < n → sizeOf v < n → sizeOf w < n →
      optEq u v = true → optEq v w = true → optEq u w = true)
    (hx : sizeOf (Dhcpv6Option.IaTa i os) ≤ n)
    (hy : sizeOf (Dhcpv6Option.IaTa i2 os2) ≤ n)
    (h : optEq (.IaTa i os) (.IaTa i2 os2) = true) :
    optEq (.IaTa i2 os2) (.IaTa i os) = true := by
  have hos : sizeOf os < n := lt_of_lt_of_le sizeOf_field_lt_iata hx
  have hos2 : sizeOf os2 < n := lt_of_lt_of_le sizeOf_field_lt_iata hy
  have hmem : ∀ u : Dhcpv6Option, (u ∈ os ∨ u ∈ os2) → sizeOf u < n := by
    rintro u (h | h)
    · exact (List.sizeOf_lt_of_mem h).trans hos
    · exact (List.sizeOf_lt_of_mem h).trans hos2
  simp only [optEq, Bool.and_eq_true, beq_iff_eq] at h ⊢
  obtain ⟨hi, hlen, hml⟩ := h
  refine ⟨hi.symm, hlen.symm, ?_⟩
  refine matchLoop_symm_aux os os2 ?_ ?_ hml
  · intro u v hu hv
    exact hS u v (hmem u hu) (hmem v hv)
  · intro u v w hu hv hw
    exact hT u v w (hmem u hu) (hmem v hv) (hmem w hw)

theorem optEq_symm_iaaddr {n : Nat} {a a2 : List Nat} {p v p2 v2 : Nat}
    {os os2 : List Dhcpv6Option}
    (hS : ∀ u v : Dhcpv6Option, sizeOf u < n → sizeOf v < n →
      optEq u v = true → optEq v u = true)
    (hT : ∀ u v w : Dhcpv6Option, sizeOf u < n → sizeOf v < n → sizeOf w < n →
      optEq u v = true → optEq v w = true → optEq u w = true)
    (hx : sizeOf (Dhcpv6Option.IaAddr a p v os) ≤ n)
    (hy : sizeOf (Dhcpv6Option.IaAddr a2 p2 v2 os2) ≤ n)
    (h : optEq (.IaAddr a p v os) (.IaAddr a2 p2 v2 os2) = true) :
    optEq (.IaAddr a2 p2 v2 os2) (.IaAddr a p v os) = true := by
  have hos : sizeOf os < n := lt_of_lt_of_le sizeOf_field_lt_iaaddr hx
  have hos2 : sizeOf os2 < n := lt_of_lt_of_le sizeOf_field_lt_iaaddr hy
  have hmem : ∀ u : Dhcpv6Option, (u ∈ os ∨ u ∈ os2) → sizeOf u < n := by
    rintro u (h | h)
    · exact (List.sizeOf_lt_of_mem h).trans hos
    · exact (List.sizeOf_lt_of_mem h).trans hos2
  simp only [optEq, Bool.and_eq_true, beq_iff_eq] at h ⊢
  obtain ⟨⟨⟨ha, h1⟩, h2⟩, hlen, hml⟩ := h
  refine ⟨⟨⟨ha.symm, h1.symm⟩, h2.symm⟩, hlen.symm, ?_⟩
  refine matchLoop_symm_aux os os2 ?_ ?_ hml
  · intro u v hu hv
    exact hS u v (hmem u hu) (hmem v hv)
  · intro u v w hu hv hw
    exact hT u v w (hmem u hu) (hmem v hv) (hmem w hw)

theorem optEq_trans_iana {n i t1 t2 i2 t12 t22 i3 t13 t23 : Nat}
    {os os2 os3 : List Dhcpv6Option}
    (hS : ∀ u v : Dhcpv6Option, sizeOf u < n → sizeOf v < n →
      optEq u v = true → optEq v u = true)
    (hT : ∀ u v w : Dhcpv6Option, sizeOf u < n → sizeOf v < n → sizeOf w < n →
      optEq u v = true → optEq v w = true → optEq u w = true)
    (hx : sizeOf (Dhcpv6Option.IaNa i t1 t2 os) ≤ n)
    (hy : sizeOf (Dhcpv6Option.IaNa i2 t12 t22 os2) ≤ n)
    (hz : sizeOf (Dhcpv6Option.IaNa i3 t13 t23 os3) ≤ n)
    (ha : optEq (.IaNa i t1 t2 os) (.IaNa i2 t12 t22 os2) = true)
    (hb : optEq (.IaNa i2 t12 t22 os2) (.IaNa i3 t13 t23 os3) = true) :
    optEq (.IaNa i t1 t2 os) (.IaNa i3 t13 t23 os3) = true := by
  have hos : sizeOf os < n := lt_of_lt_of_le sizeOf_field_lt_iana hx
  have hos2 : sizeOf os2 < n := lt_of_lt_of_le sizeOf_field_lt_iana hy
  have hos3 : sizeOf os3 < n := lt_of_lt_of_le sizeOf_field_lt_iana hz
  have hmem : ∀ u : Dhcpv6Option, (u ∈ os ∨ u ∈ os2 ∨ u ∈ os3) → sizeOf u < n := by
    rintro u (h | h | h)
    · exact (List.sizeOf_lt_of_mem h).trans hos
    · exact (List.sizeOf_lt_of_mem h).trans hos2
    · exact (List.sizeOf_lt_of_mem h).trans hos3
  simp only [optEq, Bool.and_eq_true, beq_iff_eq] at ha hb ⊢
  obtain ⟨⟨⟨hiA, hA1⟩, hA2⟩, hlenA, hmlA⟩ := ha
  obtain ⟨⟨⟨hiB, hB1⟩, hB2⟩, hlenB, hmlB⟩ := hb
  refine ⟨⟨⟨hiA.trans hiB, hA1.trans hB1⟩, hA2.trans hB2⟩, hlenA.trans hlenB, ?_⟩
  refine matchLoop_trans_aux os os2 os3 ?_ ?_ hmlA hmlB
  · intro u v hu hv
    exact hS u v (hmem u hu) (hmem v hv)
  · intro u v w hu hv hw
    exact hT u v w (hmem u hu) (hmem v hv) (hmem w hw)

theorem optEq_trans_iata {n i i2 i3 : Nat} {os os2 os3 : List Dhcpv6Option}
    (hS : ∀ u v : Dhcpv6Option, sizeOf u < n → sizeOf v < n →
      optEq u v = true → optEq v u = true)
    (hT : ∀ u v w : Dhcpv6Option, sizeOf u < n → sizeOf v < n → sizeOf w < n →
      optEq u v = true → optEq v w = true → optEq u w = true)
    (hx : sizeOf (Dhcpv6Option.IaTa i os) ≤ n)
    (hy : sizeOf (Dhcpv6Option.IaTa i2 os2) ≤ n)
    (hz : sizeOf (Dhcpv6Option.IaTa i3 os3) ≤ n)
    (ha : optEq (.IaTa i os) (.IaTa i2 os2) = true)
    (hb : optEq (.IaTa i2 os2) (.IaTa i3 os3) = true) :
    optEq (.IaTa i os) (.IaTa i3 os3) = true := by
  have hos : sizeOf os < n := lt_of_lt_of_le sizeOf_field_lt_iata hx
  have hos2 : sizeOf os2 < n := lt_of_lt_of_le sizeOf_field_lt_iata hy
  have hos3 : sizeOf os3 < n := lt_of_lt_of_le sizeOf_field_lt_iata hz
  have hmem : ∀ u : Dhcpv6Option, (u ∈ os ∨ u ∈ os2 ∨ u ∈ os3) → sizeOf u < n := by
    rintro u (h | h | h)
    · exact (List.sizeOf_lt_of_mem h).trans hos
    · exact (List.sizeOf_lt_of_mem h).trans hos2
    · exact (List.sizeOf_lt_of_mem h).trans hos3
  simp only [optEq, Bool.and_eq_true, beq_iff_eq] at ha hb ⊢
  obtain ⟨hiA, hlenA, hmlA⟩ := ha
  obtain ⟨hiB, hlenB, hmlB⟩ := hb
  refine ⟨hiA.trans hiB, hlenA.trans hlenB, ?_⟩
  refine matchLoop_trans_aux os os2 os3 ?_ ?_ hmlA hmlB
  · intro u v hu hv
    exact hS u v (hmem u hu) (hmem v hv)
  · intro u v w hu hv hw
    exact hT u v w (hmem u hu) (hmem v hv) (hmem w hw)

theorem optEq_trans_iaaddr {n : Nat} {a a2 a3 : List Nat} {p v p2 v2 p3 v3 : Nat}
    {os os2 os3 : List Dhcpv6Option}
    (hS : ∀ u v : Dhcpv6Option, sizeOf u < n → sizeOf v < n →
      optEq u v = true → optEq v u = true)
    (hT : ∀ u v w : Dhcpv6Option, sizeOf u < n → sizeOf v < n → sizeOf w < n →
      optEq u v = true → optEq v w = true → optEq u w = true)
    (hx : sizeOf (Dhcpv6Option.IaAddr a p v os) ≤ n)
    (hy : sizeOf (Dhcpv6Option.IaAddr a2 p2 v2 os2) ≤ n)
    (hz : sizeOf (Dhcpv6Option.IaAddr a3 p3 v3 os3) ≤ n)
    (ha : optEq (.IaAddr a p v os) (.IaAddr a2 p2 v2 os2) = true)
    (hb : optEq (.IaAddr a2 p2 v2 os2) (.IaAddr a3 p3 v3 os3) = true) :
    optEq (.IaAddr a p v os) (.IaAddr a3 p3 v3 os3) = true := by
  have hos : sizeOf os < n := lt_of_lt_of_le sizeOf_field_lt_iaaddr hx
  have hos2 : sizeOf os2 < n := lt_of_lt_of_le sizeOf_field_lt_iaaddr hy
  have hos3 : sizeOf os3 < n := lt_of_lt_of_le sizeOf_field_lt_iaaddr hz
  have hmem : ∀ u : Dhcpv6Option, (u ∈ os ∨ u ∈ os2 ∨ u ∈ os3) → sizeOf u < n := by
    rintro u (h | h | h)
    · exact (List.sizeOf_lt_of_mem h).trans hos
    · exact (List.sizeOf_lt_of_mem h).trans hos2
    · exact (List.sizeOf_lt_of_mem h).trans hos3
  simp only [optEq, Bool.and_eq_true, beq_iff_eq] at ha hb ⊢
  obtain ⟨⟨⟨haA, hA1⟩, hA2⟩, hlenA, hmlA⟩ := ha
  obtain ⟨⟨⟨haB, hB1⟩, hB2⟩, hlenB, hmlB⟩ := hb
  refine ⟨⟨⟨haA.trans haB, hA1.trans hB1⟩, hA2.trans hB2⟩, hlenA.trans hlenB, ?_⟩
  refine matchLoop_trans_aux os os2 os3 ?_ ?_ hmlA hmlB
  · intro u v hu hv
    exact hS u v (hmem u hu) (hmem v hv)
  · intro u v w hu hv hw
    exact hT u v w (hmem u hu) (hmem v hv) (hmem w hw)

set_option maxHeartbeats 4000000 in
theorem optEq_equiv : ∀ n : Nat,
    (∀ x : Dhcpv6Option, sizeOf x ≤ n → optEq x x = true) ∧
    (∀ x y : Dhcpv6Option, sizeOf x ≤ n → sizeOf y ≤ n →
      optEq x y = true → optEq y x = true) ∧
    (∀ x y z : Dhcpv6Option, sizeOf x ≤ n → sizeOf y ≤ n → sizeOf z ≤ n →
      optEq x y = true → optEq y z = true → optEq x z = true) := by
  intro n
  induction n using Nat.strong_induction_on with
  | _ n ih =>
  have hR : ∀ u : Dhcpv6Option, sizeOf u < n → optEq u u = true :=
    fun u hu => (ih (sizeOf u) hu).1 u le_rfl
  have hS : ∀ u v : Dhcpv6Option, sizeOf u < n → sizeOf v < n →
      optEq u v = true → optEq v u = true := by
    intro u v hu hv
    exact (ih (max (sizeOf u) (sizeOf v)) (Nat.max_lt.mpr ⟨hu, hv⟩)).2.1 u v
      (Nat.le_max_left _ _) (Nat.le_max_right _ _)
  have hT : ∀ u v w : Dhcpv6Option, sizeOf u < n → sizeOf v < n → sizeOf w < n →
      optEq u v = true → optEq v w = true → optEq u w = true := by
    intro u v w hu hv hw
    refine (ih (max (sizeOf u) (max (sizeOf v) (sizeOf w)))
      (Nat.max_lt.mpr ⟨hu, Nat.max_lt.mpr ⟨hv, hw⟩⟩)).2.2 u v w ?_ ?_ ?_
    · exact Nat.le_max_left _ _
    · exact le_trans (Nat.le_max_left _ _) (Nat.le_max_right _ _)
    · exact le_trans (Nat.le_max_right _ _) (Nat.le_max_right _ _)
  refine ⟨?_, ?_, ?_⟩
  · intro x hx
    cases x <;> first
      | (simp [optEq]; done)
      | exact optEq_refl_iana hR hx
      | exact optEq_refl_iata hR hx
      | exact optEq_refl_iaaddr hR hx
  · intro x y hx hy hxy
    cases x <;> cases y <;> first
      | (simp [optEq] at hxy; done)
      | exact optEq_symm_iana hS hT hx hy hxy
      | exact optEq_symm_iata hS hT hx hy hxy
      | exact optEq_symm_iaaddr hS hT hx hy hxy
      | (simp_all [optEq]; done)
  · intro x y z hx hy hz hxy hyz
    cases x <;> cases y <;> first
      | (simp [optEq] at hxy; done)
      | (cases z <;> first
          | (simp [optEq] at hyz; done)
          | exact optEq_trans_iana hS hT hx hy hz hxy hyz
          | exact optEq_trans_iata hS hT hx hy hz hxy hyz
          | exact optEq_trans_iaaddr hS hT hx hy hz hxy hyz
          | (simp_all [optEq]; done))

theorem optEq_refl (x : Dhcpv6Option) : optEq x x = true :=
  (optEq_equiv (sizeOf x)).1 x le_rfl

theorem optEq_symm {x y : Dhcpv6Option} (h : optEq x y = true) : optEq y x = true :=
  (optEq_equiv (max (sizeOf x) (sizeOf y))).2.1 x y
    (Nat.le_max_left _ _) (Nat.le_max_right _ _) h

theorem optEq_trans {x y z : Dhcpv6Option} (h1 : optEq x y = true)
    (h2 : optEq y z = true) : optEq x z = true :=
  (optEq_equiv (max (sizeOf x) (max (sizeOf y) (sizeOf z)))).2.2 x y z
    (Nat.le_max_left _ _)
    (le_trans (Nat.le_max_left _ _) (Nat.le_max_right _ _))
    (le_trans (Nat.le_max_right _ _) (Nat.le_max_right _ _)) h1 h2

/-- `matchLoop` succeeds exactly when the two-counter fold ends with no
unmatched element on either side. -/
theorem cmpLoop_matchLoop : ∀ (a b : List Dhcpv6Option),
    matchLoop a b = true ↔ cmpLoop a b = (0, []) := by
  intro a
  induction a with
  | nil =>
    intro b
    constructor
    · intro h
      simp only [matchLoop, List.isEmpty_iff] at h
      simp [cmpLoop, h]
    · intro h
      simp only [cmpLoop, Prod.mk.injEq] at h
      simp [matchLoop, h.2]
  | cons x xs ih =>
    intro b
    cases he : eraseFirstMatch x b with
    | none =>
      have hef : eraseFirst x b = none := by simp [eraseFirst, he]
      constructor
      · intro h
        rw [show matchLoop (x :: xs) b = false from by simp [matchLoop, he]] at h
        simp at h
      · intro h
        rw [show cmpLoop (x :: xs) b = ((cmpLoop xs b).1 + 1, (cmpLoop xs b).2) from by
            simp [cmpLoop, hef]] at h
        have h1 := congrArg Prod.fst h
        simp at h1
    | some r =>
      have hef : eraseFirst x b = some r.val := by simp [eraseFirst, he]
      have h1 : matchLoop (x :: xs) b = matchLoop xs r.val := by simp [matchLoop, he]
      have h2 : cmpLoop (x :: xs) b = cmpLoop xs r.val := by simp [cmpLoop, hef]
      rw [h1, h2]
      exact ih r.val

/-- Count invariant of the fold: unmatched-right + left-consumed =
right-total + unmatched-left. -/
theorem cmpLoop_count : ∀ (a b : List Dhcpv6Option),
    (cmpLoop a b).2.length + a.length = b.length + (cmpLoop a b).1 := by
  intro a
  induction a with
  | nil => intro b; simp [cmpLoop]
  | cons x xs ih =>
    intro b
    cases he : eraseFirstMatch x b with
    | none =>
      have hef : eraseFirst x b = none := by simp [eraseFirst, he]
      have hc : cmpLoop (x :: xs) b = ((cmpLoop xs b).1 + 1, (cmpLoop xs b).2) := by
        simp [cmpLoop, hef]
      rw [hc]
      have := ih b
      simp only [List.length_cons]
      omega
    | some r =>
      have hef : eraseFirst x b = some r.val := by simp [eraseFirst, he]
      have hc : cmpLoop (x :: xs) b = cmpLoop xs r.val := by simp [cmpLoop, hef]
      obtain ⟨z, hz, hzb, hmul, hlen, hsub⟩ := eraseFirstMatch_some he
      rw [hc]
      have := ih r.val
      simp only [List.length_cons]
      omega

/-- `compare_options` succeeds iff the lists have equal length and the
matching loop succeeds. -/
theorem compare_options_ok_iff_matches (a b : List Dhcpv6Option) :
    compare_options a b = .ok () ↔ (a.length = b.length ∧ matchLoop a b = true) := by
  constructor
  · intro h
    by_cases hlen : a.length = b.length
    · refine ⟨hlen, ?_⟩
      rw [cmpLoop_matchLoop a b]
      cases hcc : cmpLoop a b with
      | mk c1 c2 =>
        simp only [compare_options, hcc] at h
        rw [if_neg (not_ne_iff.mpr hlen)] at h
        by_cases h1 : c1 = 0
        · subst h1
          cases c2 with
          | nil => rfl
          | cons u us => simp at h
        · simp [h1] at h
    · exfalso
      simp [compare_options, hlen] at h
  · rintro ⟨hlen, hml⟩
    have hc := (cmpLoop_matchLoop a b).mp hml
    simp [compare_options, hc, hlen]

/-- `compare_options` succeeds iff the lists have equal length and are
related element-by-element, up to order, by `optEq`. -/
theorem compare_options_ok_iff_rel (a b : List Dhcpv6Option) :
    compare_options a b = .ok () ↔
      (a.length = b.length ∧ Multiset.Rel ROpt ↑a ↑b) := by
  rw [compare_options_ok_iff_matches]
  constructor
  · rintro ⟨hlen, hml⟩
    exact ⟨hlen, matchLoop_to_rel a b hml⟩
  · rintro ⟨hlen, hrel⟩
    refine ⟨hlen, rel_to_matchLoop a b ?_ ?_ hrel⟩
    · intro u v _ _ h
      exact optEq_symm h
    · intro u v w _ _ _ h1 h2
      exact optEq_trans h1 h2

/-- C6: compare_options implements order-independent, multiplicity-respecting
equality: it succeeds exactly on equal-length multiset-equivalent sequences
(hence on every permutation), reports matching nonzero extra/missing counts
on equal-length sequences that are not multiset-equivalent, rejects
different lengths, and on the spec examples accepts [A,A,B] vs [A,B,A]
and rejects [A,A] vs [A,B] with one extra and one missing. -/
theorem c6_compare_options :
    (∀ a b : List Dhcpv6Option, compare_options a b = .ok () ↔
      (a.length = b.length ∧ Multiset.Rel ROpt ↑a ↑b)) ∧
    (∀ a b : List Dhcpv6Option, a.Perm b → compare_options a b = .ok ()) ∧
    (∀ a b : List Dhcpv6Option, a.length = b.length → ¬ Multiset.Rel ROpt ↑a ↑b →
      ∃ k : Nat, 0 < k ∧ compare_options a b = .error (.Other
        (toString k ++ " extra options.  " ++ toString k ++ " missing options."))) ∧
    (∀ a b : List Dhcpv6Option, a.length ≠ b.length →
      compare_options a b = .error (.Other "option counts differ")) ∧
    compare_options
      [Dhcpv6Option.RapidCommit, Dhcpv6Option.RapidCommit, Dhcpv6Option.ReconfAccept]
      [Dhcpv6Option.RapidCommit, Dhcpv6Option.ReconfAccept, Dhcpv6Option.RapidCommit] =
      .ok () ∧
    compare_options [Dhcpv6Option.RapidCommit, Dhcpv6Option.RapidCommit]
      [Dhcpv6Option.RapidCommit, Dhcpv6Option.ReconfAccept] =
      .error (.Other "1 extra options.  1 missing options.") := by
  refine ⟨compare_options_ok_iff_rel, ?_, ?_, ?_, ?_, ?_⟩
  · intro a b hperm
    refine (compare_options_ok_iff_rel a b).mpr ⟨hperm.length_eq, ?_⟩
    rw [← Multiset.coe_eq_coe.mpr hperm]
    exact rel_refl_of (fun u _ => optEq_refl u)
  · intro a b hlen hnrel
    have hml : matchLoop a b = false := by
      cases hmb : matchLoop a b with
      | false => rfl
      | true => exact absurd (matchLoop_to_rel a b hmb) hnrel
    cases hcc : cmpLoop a b with
    | mk c1 c2 =>
      have hcount := cmpLoop_count a b
      rw [hcc] at hcount
      simp at hcount
      have hne : ¬(c1 = 0 ∧ c2 = []) := by
        rintro ⟨h0, hnil⟩
        have hmt : matchLoop a b = true :=
          (cmpLoop_matchLoop a b).mpr (by rw [hcc, h0, hnil])
        rw [hml] at hmt
        exact Bool.false_ne_true hmt
      have h1pos : 0 < c1 := by
        by_contra hc
        have h0 : c1 = 0 := by omega
        have h2 : c2.length = 0 := by omega
        exact hne ⟨h0, List.eq_nil_of_length_eq_zero h2⟩
      refine ⟨c1, h1pos, ?_⟩
      have h2len : c2.length = c1 := by omega
      have h1ne : c1 ≠ 0 := by omega
      simp [compare_options, hcc, hlen, h1ne, h2len]
  · intro a b hlen
    simp [compare_options, hlen]
  · refine (compare_options_ok_iff_rel _ _).mpr ⟨rfl, ?_⟩
    have hperm : (([Dhcpv6Option.RapidCommit, Dhcpv6Option.RapidCommit,
        Dhcpv6Option.ReconfAccept] : List Dhcpv6Option)).Perm
        [Dhcpv6Option.RapidCommit, Dhcpv6Option.ReconfAccept,
          Dhcpv6Option.RapidCommit] :=
      List.Perm.cons _ (List.Perm.swap _ _ _)
    rw [← Multiset.coe_eq_coe.mpr hperm]
    exact rel_refl_of (fun u _ => optEq_refl u)
  · have h1 : optEq Dhcpv6Option.RapidCommit Dhcpv6Option.RapidCommit = true := by
      simp [optEq]
    have h2 : optEq Dhcpv6Option.RapidCommit Dhcpv6Option.ReconfAccept = false := by
      simp [optEq]
    simp [compare_options, cmpLoop, eraseFirst, eraseFirstMatch, matchLoop, h1, h2]
    rfl

/-- Witness for C6: applying the permutation clause at the concrete
two-element swap. -/
theorem c6_compare_options_witness :
    compare_options [Dhcpv6Option.RapidCommit, Dhcpv6Option.ReconfAccept]
      [Dhcpv6Option.ReconfAccept, Dhcpv6Option.RapidCommit] = .ok () :=
  c6_compare_options.2.1 _ _ (List.Perm.swap _ _ _)

end Dhcpv6
